import Mathlib

/-!
Verification of the Hex MCTS repository (game.py, bot.py).

Shallow embedding conventions:
* Python ints are `Int` where they can be negative (move coordinates,
  neighbour offsets) and `Nat` where they are always non-negative.
* The mutable board `List[List[int]]` is embedded as a total function
  `Nat → Nat → Nat`; the source only ever indexes it after an explicit
  bounds check, so out-of-range behaviour is unobservable.
* Python floats are embedded as exact rationals `ℚ`; the transcendental
  functions `math.exp`, `math.log`, `math.sqrt` and the global
  `random.random()` stream are parameters (an `Oracle`), so theorems
  quantify over every possible behaviour of those functions.
* In-place mutation becomes explicit state passing: `play` returns the
  `(bool, new state)` pair.  Python exceptions (and fuel exhaustion of
  loops) are modelled by `Option`.
* A `Python set` of coordinate pairs is modelled as a duplicate-free list
  in insertion order (the set's iteration order is implementation
  defined in Python; it only influences tie-breaking in score sorts).
-/

namespace HexPy

/-- Cell contents / player identifiers, from game.py. -/
def EMPTY : Nat := 0
def RED : Nat := 1
def BLUE : Nat := 2

/-- The six hexagonal neighbour offsets `NEI` from game.py (bot.py's
`NEIGHBORS` is the identical list). -/
def NEI : List (Int × Int) := [(-1, 0), (-1, 1), (0, -1), (0, 1), (1, -1), (1, 0)]

/-- The frozen `Move` dataclass: an immutable (row, column) pair. -/
structure Move where
  r : Int
  c : Int
deriving DecidableEq, Repr

/-- The `HexGame` state: board, player to move, winner, last move and
move counter.  `size` is fixed at construction. -/
structure HexGame where
  size : Nat
  board : Nat → Nat → Nat
  current : Nat
  winner : Nat
  last_move : Option Move
  moves_played : Nat

/-- `HexGame.reset` / `__init__`: empty board, RED to move, no winner. -/
def HexGame.init (n : Nat) : HexGame :=
  { size := n
    board := fun _ _ => EMPTY
    current := RED
    winner := EMPTY
    last_move := none
    moves_played := 0 }

/-- `HexGame.in_bounds`. -/
def HexGame.in_bounds (g : HexGame) (r c : Int) : Prop :=
  0 ≤ r ∧ r < (g.size : Int) ∧ 0 ≤ c ∧ c < (g.size : Int)

instance (g : HexGame) (r c : Int) : Decidable (g.in_bounds r c) := by
  unfold HexGame.in_bounds; infer_instance

/-- Row-major list of the empty cells (the body of both
`HexGame.legal_moves` and bot.py's `empty_cells`). -/
def emptyCellsList (g : HexGame) : List Move :=
  (List.range g.size).flatMap (fun r =>
    (List.range g.size).filterMap (fun c =>
      if g.board r c = EMPTY then some ⟨(r : Int), (c : Int)⟩ else none))

/-- bot.py `empty_cells`. -/
def empty_cells (g : HexGame) : List Move := emptyCellsList g

/-- `HexGame.legal_moves`: all empty cells, or `[]` once there is a winner. -/
def HexGame.legal_moves (g : HexGame) : List Move :=
  if g.winner ≠ EMPTY then [] else emptyCellsList g

/-- In-bounds neighbours of a cell, as natural-number coordinates
(`neighbors` in bot.py, and the inline neighbour loop of `has_won`). -/
def neighborsN (n : Nat) (r c : Nat) : List (Nat × Nat) :=
  NEI.filterMap (fun d =>
    if 0 ≤ (r : Int) + d.1 ∧ (r : Int) + d.1 < (n : Int) ∧
        0 ≤ (c : Int) + d.2 ∧ (c : Int) + d.2 < (n : Int) then
      some (((r : Int) + d.1).toNat, ((c : Int) + d.2).toNat)
    else none)

/-- Processing of one neighbour in the BFS of `has_won`: mark and
enqueue it when it is unvisited and holds `player`'s stone. -/
def expandStep (g : HexGame) (player : Nat)
    (vq : Finset (Nat × Nat) × List (Nat × Nat)) (p : Nat × Nat) :
    Finset (Nat × Nat) × List (Nat × Nat) :=
  if p ∉ vq.1 ∧ g.board p.1 p.2 = player then (insert p vq.1, vq.2 ++ [p]) else vq

/-- One BFS step of `has_won`: process the in-bounds neighbours of `rc`,
marking and enqueueing each unvisited cell holding `player`'s stone. -/
def bfsExpand (g : HexGame) (player : Nat) (rc : Nat × Nat)
    (vq : Finset (Nat × Nat) × List (Nat × Nat)) :
    Finset (Nat × Nat) × List (Nat × Nat) :=
  (neighborsN g.size rc.1 rc.2).foldl (expandStep g player) vq

/-- The `is_end` test of `has_won`: bottom row for the top-bottom player,
right column for BLUE. -/
def isEnd (player : Nat) (n : Nat) (rc : Nat × Nat) : Prop :=
  if player = BLUE then rc.2 = n - 1 else rc.1 = n - 1

instance (player n : Nat) (rc : Nat × Nat) : Decidable (isEnd player n rc) := by
  unfold isEnd; infer_instance

/-- The BFS loop of `has_won`, with explicit `(visited, queue)` state and
fuel (`none` = fuel exhausted; the fuel used below is proven sufficient). -/
def bfsLoop (g : HexGame) (player : Nat) :
    Nat → Finset (Nat × Nat) → List (Nat × Nat) → Option Bool
  | _, _, [] => some false
  | 0, _, _ :: _ => none
  | fuel + 1, vis, rc :: q =>
      if isEnd player g.size rc then some true
      else
        let vq := bfsExpand g player rc (vis, q)
        bfsLoop g player fuel vq.1 vq.2

/-- The seed cells of `has_won`: BLUE seeds from its stones in the left
column; the other branch seeds from the `RED` stones in the top row (the
source literally compares with `RED` there, not with `player`). -/
def seeds (g : HexGame) (player : Nat) : List (Nat × Nat) :=
  if player = BLUE then
    (List.range g.size).filterMap (fun r =>
      if g.board r 0 = BLUE then some (r, 0) else none)
  else
    (List.range g.size).filterMap (fun c =>
      if g.board 0 c = RED then some (0, c) else none)

/-- `HexGame.has_won`: breadth-first search from the start-edge stones. -/
def HexGame.has_won (g : HexGame) (player : Nat) : Bool :=
  (bfsLoop g player (g.size * g.size + g.size + 1)
    (seeds g player).toFinset (seeds g player)).getD false

/-- The state after the three in-place mutations at the top of a
successful `play`: stone placed, last move recorded, counter bumped. -/
def HexGame.placed (g : HexGame) (mv : Move) : HexGame :=
  { g with
    board := fun r c =>
      if r = mv.r.toNat ∧ c = mv.c.toNat then g.current else g.board r c
    last_move := some mv
    moves_played := g.moves_played + 1 }

/-- `HexGame.play`: the `attemptMove` operation. -/
def HexGame.play (g : HexGame) (mv : Move) : Bool × HexGame :=
  if g.winner ≠ EMPTY then (false, g)
  else if ¬ g.in_bounds mv.r mv.c then (false, g)
  else if g.board mv.r.toNat mv.c.toNat ≠ EMPTY then (false, g)
  else if (g.placed mv).has_won g.current then
    (true, { g.placed mv with winner := g.current })
  else
    (true, { g.placed mv with current := if g.current = RED then BLUE else RED })

/-- `HexGame.clone` of the pure state (aliasing behaviour is modelled
separately by the heap embedding below). -/
def HexGame.clone (g : HexGame) : HexGame := g

/-- Sequential application of moves through `play` (ignoring the success
flags), used to define reachability. -/
def playAll (g : HexGame) (ms : List Move) : HexGame :=
  ms.foldl (fun g m => (g.play m).2) g

/-- A state is reachable when it arises from a fresh game by some move
sequence. -/
def Reachable (g : HexGame) : Prop :=
  ∃ n ms, g = playAll (HexGame.init n) ms

/-! ### Exact embedding of Python floats

The heuristic scores only use `+ - * /` and comparisons on decimal
literals, which are exact on fractions; `Frac` is an unnormalised
fraction (kept unnormalised so that every operation is plain integer
arithmetic, evaluable by the kernel).  All denominators produced by the
embedded code are positive, so cross-multiplication comparison agrees
with the rational order. -/
structure Frac where
  num : Int
  den : Nat
deriving DecidableEq, Repr

instance : OfNat Frac n := ⟨⟨(n : Int), 1⟩⟩
instance : OfScientific Frac :=
  ⟨fun m b e => if b then ⟨(m : Int), 10 ^ e⟩ else ⟨(m : Int) * 10 ^ e, 1⟩⟩
instance : NatCast Frac := ⟨fun n => ⟨(n : Int), 1⟩⟩

def Frac.add (a b : Frac) : Frac := ⟨a.num * b.den + b.num * a.den, a.den * b.den⟩
def Frac.sub (a b : Frac) : Frac := ⟨a.num * b.den - b.num * a.den, a.den * b.den⟩
def Frac.mul (a b : Frac) : Frac := ⟨a.num * b.num, a.den * b.den⟩
def Frac.neg (a : Frac) : Frac := ⟨-a.num, a.den⟩
def Frac.inv (a : Frac) : Frac :=
  if a.num < 0 then ⟨-(a.den : Int), a.num.natAbs⟩ else ⟨(a.den : Int), a.num.natAbs⟩
def Frac.div (a b : Frac) : Frac := a.mul b.inv

instance : Add Frac := ⟨Frac.add⟩
instance : Sub Frac := ⟨Frac.sub⟩
instance : Mul Frac := ⟨Frac.mul⟩
instance : Neg Frac := ⟨Frac.neg⟩
instance : Div Frac := ⟨Frac.div⟩

/-- Comparison by cross multiplication (valid for positive denominators,
which is all the embedded code produces). -/
def Frac.ble (a b : Frac) : Bool := a.num * b.den ≤ b.num * a.den
def Frac.blt (a b : Frac) : Bool := a.num * b.den < b.num * a.den

/-- The rational value of a fraction (den 0 maps to 0, a case the
embedded code never produces). -/
def Frac.val (a : Frac) : ℚ := (a.num : ℚ) / (a.den : ℚ)

/-! ### bot.py heuristics -/

/-- bot.py `other`. -/
def other (player : Nat) : Nat := if player = BLUE then RED else BLUE

/-- bot.py `manhattan_like_to_goal` (arguments are always in-bounds
cells, so the natural subtraction is exact). -/
def manhattan_like_to_goal (player n : Nat) (r c : Nat) : Nat :=
  if player = RED then min r (n - 1 - r) else min c (n - 1 - c)

/-- bot.py `count_adjacent_stones`. -/
def count_adjacent_stones (g : HexGame) (r c : Nat) (player : Nat) : Nat :=
  (neighborsN g.size r c).countP (fun p => g.board p.1 p.2 = player)

/-- bot.py `count_adjacent_any`. -/
def count_adjacent_any (g : HexGame) (r c : Nat) : Nat :=
  (neighborsN g.size r c).countP (fun p => g.board p.1 p.2 ≠ EMPTY)

/-- Append-if-absent, modelling `set.add` with iteration in insertion
order. -/
def insertIfAbsent (x : Nat × Nat) (l : List (Nat × Nat)) : List (Nat × Nat) :=
  if x ∈ l then l else l ++ [x]

/-- All cells of an n×n board in row-major order. -/
def cellsRowMajor (n : Nat) : List (Nat × Nat) :=
  (List.range n).flatMap (fun r => (List.range n).map (fun c => (r, c)))

/-- Whether the board holds any stone (`any_stone` in `frontier_moves`). -/
def anyStone (g : HexGame) : Bool :=
  (cellsRowMajor g.size).any (fun rc => g.board rc.1 rc.2 ≠ EMPTY)

/-- The candidate set built by `frontier_moves`: empty cells adjacent to
occupied cells, or centre-and-neighbours on an entirely empty board. -/
def frontierCandCells (g : HexGame) : List (Nat × Nat) :=
  let base := (cellsRowMajor g.size).foldl
    (fun acc rc =>
      if g.board rc.1 rc.2 ≠ EMPTY then
        (neighborsN g.size rc.1 rc.2).foldl
          (fun acc p => if g.board p.1 p.2 = EMPTY then insertIfAbsent p acc else acc)
          acc
      else acc)
    []
  if anyStone g then base
  else
    let mid := g.size / 2
    ((mid, mid) :: neighborsN g.size mid mid).foldl (fun acc p => insertIfAbsent p acc) base

/-- The expansion score of `frontier_moves` for the player to move. -/
def frontierScore (g : HexGame) (m : Move) : Frac :=
  let p := g.current
  let r := m.r.toNat
  let c := m.c.toNat
  let adj_p := count_adjacent_stones g r c p
  let adj_o := count_adjacent_stones g r c (other p)
  let adj_any := count_adjacent_any g r c
  let dist_goal := manhattan_like_to_goal p g.size r c
  (3.2 : Frac) * (adj_p : Frac) + (1.2 : Frac) * (adj_any : Frac)
    + (0.6 : Frac) * (adj_o : Frac) - (0.35 : Frac) * (dist_goal : Frac)

/-- bot.py `frontier_moves`: the pruned, heuristically ranked candidate
list (the final sort is stable and descending, like Python's
`sort(key=score, reverse=True)`). -/
def frontier_moves (g : HexGame) (max_candidates : Nat := 30) : List Move :=
  if ((frontierCandCells g).map (fun p => (⟨(p.1 : Int), (p.2 : Int)⟩ : Move))).length < 8 then
    empty_cells g
  else
    (((frontierCandCells g).map (fun p => (⟨(p.1 : Int), (p.2 : Int)⟩ : Move))).mergeSort
      (fun a b => Frac.ble (frontierScore g b) (frontierScore g a))).take max_candidates

/-- The rollout score of `rollout_policy`. -/
def rolloutScore (g : HexGame) (m : Move) : Frac :=
  let p := g.current
  let r := m.r.toNat
  let c := m.c.toNat
  let adj_p := count_adjacent_stones g r c p
  let adj_any := count_adjacent_any g r c
  let dist_goal := manhattan_like_to_goal p g.size r c
  (2.8 : Frac) * (adj_p : Frac) + (0.9 : Frac) * (adj_any : Frac)
    - (0.45 : Frac) * (dist_goal : Frac)

/-- Python's `max` over a list: the first maximum (strict comparison);
`none` models the `ValueError` of `max([])`. -/
def listMax (l : List Frac) : Option Frac :=
  match l with
  | [] => none
  | x :: xs => some (xs.foldl (fun b s => if Frac.blt b s then s else b) x)

/-- The sampling loop of `rollout_policy`: first candidate whose running
weight sum reaches the draw `r`. -/
def softmaxGo : List (Move × Frac) → Frac → Frac → Option Move
  | [], _, _ => none
  | (m, e) :: rest, acc, r =>
      if Frac.ble r (acc + e) then some m else softmaxGo rest (acc + e) r

/-- bot.py `rollout_policy`.  `fexp` stands for `math.exp` and `rnd` is
the value drawn from the global `random.random()`; `none` models a
raised exception (empty candidate list). -/
def rollout_policy (fexp : Frac → Frac) (rnd : Frac) (g : HexGame)
    (max_candidates : Nat := 12) : Option Move :=
  match listMax ((frontier_moves g max_candidates).map (rolloutScore g)) with
  | none => none
  | some mx =>
    match softmaxGo
        ((frontier_moves g max_candidates).zip
          (((frontier_moves g max_candidates).map (rolloutScore g)).map
            (fun s => fexp ((s - mx) / (1.0 : Frac)))))
        0
        (rnd * ((((frontier_moves g max_candidates).map (rolloutScore g)).map
            (fun s => fexp ((s - mx) / (1.0 : Frac)))).foldl (· + ·) (0 : Frac)
          + (1e-12 : Frac))) with
    | some m => some m
    | none => (frontier_moves g max_candidates).getLast?

/-! ### Specification-side connectivity predicates (for the `hasWon` claim)

These state what a "connecting chain" is, in the words of the
specification; the theorems below relate them to the breadth-first
search of `has_won`. -/

/-- Six-neighbour hexagonal adjacency between two cells. -/
def adjacentCells (a b : Nat × Nat) : Prop :=
  ∃ d ∈ NEI, (b.1 : Int) = (a.1 : Int) + d.1 ∧ (b.2 : Int) = (a.2 : Int) + d.2

/-- An in-bounds cell holding `player`'s stone. -/
def stoneAt (g : HexGame) (player : Nat) (p : Nat × Nat) : Prop :=
  p.1 < g.size ∧ p.2 < g.size ∧ g.board p.1 p.2 = player

/-- The player's start edge: top row for the top-bottom player, left
column for the left-right player BLUE. -/
def startEdge (player : Nat) (p : Nat × Nat) : Prop :=
  if player = BLUE then p.2 = 0 else p.1 = 0

instance (player : Nat) (p : Nat × Nat) : Decidable (startEdge player p) := by
  unfold startEdge; infer_instance

/-- One step of same-player connectivity: move to an adjacent in-bounds
cell holding the player's stone. -/
def chainStep (g : HexGame) (player : Nat) (a b : Nat × Nat) : Prop :=
  stoneAt g player b ∧ adjacentCells a b

/-- A connecting chain as the specification words it: a non-empty list
of the player's stones, consecutively adjacent, starting on the
player's start edge and ending on the opposite edge. -/
def isChain (g : HexGame) (player : Nat) (path : List (Nat × Nat)) : Prop :=
  path ≠ [] ∧ (∀ p ∈ path, stoneAt g player p) ∧ path.Chain' adjacentCells ∧
    startEdge player (path.headD (0, 0)) ∧ isEnd player g.size (path.getLastD (0, 0))

/-- Existence of an edge-to-edge chain, in relation form (equivalent to
`∃ path, isChain`, proven below). -/
def hasChain (g : HexGame) (player : Nat) : Prop :=
  ∃ s t, stoneAt g player s ∧ startEdge player s ∧
    Relation.ReflTransGen (chainStep g player) s t ∧ isEnd player g.size t

/-! ### Heap model of `clone`

`clone` is about aliasing: the copy must share no mutable row objects
with the source.  The pure embedding cannot see aliasing, so the board
rows are modelled in a small heap: a store of row objects, with each
game holding the indices of its rows. -/

abbrev Store := List (List Nat)

/-- A game state whose board is a list of row-object indices into a
`Store`. -/
structure HexGameH where
  size : Nat
  rows : List Nat
  current : Nat
  winner : Nat
  last_move : Option Move
  moves_played : Nat

/-- Reading a board cell through the heap. -/
def readCell (st : Store) (g : HexGameH) (r c : Nat) : Nat :=
  (st.getD (g.rows.getD r 0) []).getD c EMPTY

/-- The pure state a heap state denotes (used to evaluate `has_won`). -/
def materialize (st : Store) (g : HexGameH) : HexGame :=
  { size := g.size, board := fun r c => readCell st g r c, current := g.current,
    winner := g.winner, last_move := g.last_move, moves_played := g.moves_played }

/-- `HexGame(size)` in the heap model: allocates `size` fresh rows. -/
def initH (st : Store) (n : Nat) : Store × HexGameH :=
  (st ++ List.replicate n (List.replicate n EMPTY),
   { size := n, rows := (List.range n).map (fun i => st.length + i), current := RED,
     winner := EMPTY, last_move := none, moves_played := 0 })

/-- `HexGame.clone` in the heap model: build a fresh game, then rebind
its board to fresh copies of the source's row objects (`[row[:] for row
in self.board]`); the constructor's own rows become garbage. -/
def cloneH (st : Store) (g : HexGameH) : Store × HexGameH :=
  ((initH st g.size).1 ++ g.rows.map (fun i => st.getD i []),
   { size := g.size,
     rows := (List.range g.size).map (fun i => (initH st g.size).1.length + i),
     current := g.current, winner := g.winner, last_move := g.last_move,
     moves_played := g.moves_played })

/-- The in-place row mutation `self.board[mv.r][mv.c] = p` of a
successful heap-model `play`. -/
def writeH (st : Store) (g : HexGameH) (mv : Move) : Store :=
  st.set (g.rows.getD mv.r.toNat 0)
    ((st.getD (g.rows.getD mv.r.toNat 0) []).set mv.c.toNat g.current)

/-- The scalar-field mutations of a successful heap-model `play`. -/
def bumpH (g : HexGameH) (mv : Move) : HexGameH :=
  { g with last_move := some mv, moves_played := g.moves_played + 1 }

/-- `HexGame.play` in the heap model: mutates the row object in place. -/
def playH (st : Store) (g : HexGameH) (mv : Move) : Bool × Store × HexGameH :=
  if g.winner ≠ EMPTY then (false, st, g)
  else if ¬ (0 ≤ mv.r ∧ mv.r < (g.size : Int) ∧ 0 ≤ mv.c ∧ mv.c < (g.size : Int)) then
    (false, st, g)
  else if readCell st g mv.r.toNat mv.c.toNat ≠ EMPTY then (false, st, g)
  else if (materialize (writeH st g mv) (bumpH g mv)).has_won g.current then
    (true, writeH st g mv, { bumpH g mv with winner := g.current })
  else
    (true, writeH st g mv,
      { bumpH g mv with current := if g.current = RED then BLUE else RED })

/-- A sequence of `play` calls in the heap model. -/
def playAllH (sg : Store × HexGameH) (ms : List Move) : Store × HexGameH :=
  ms.foldl (fun sg m => (playH sg.1 sg.2 m).2) sg

/-! ### bot.py MCTS engine

The search node.  The dataclass has a `parent` back-reference; in the
embedding the tree is a pure value and backpropagation is performed on
the way back up the recursive descent, which touches exactly the nodes
the source's `parent` walk touches, so parent links need no
representation.  `children` is an insertion-ordered association list,
like a Python dict keyed by `(move.r, move.c)`. -/
inductive Node where
  | mk (move : Option Move) (player_to_move : Nat) (untried : List Move)
      (children : List ((Int × Int) × Node)) (visits : Nat)
      (wins_for_root_player : Frac)

def Node.move : Node → Option Move
  | .mk m _ _ _ _ _ => m

def Node.player_to_move : Node → Nat
  | .mk _ p _ _ _ _ => p

def Node.untried : Node → List Move
  | .mk _ _ u _ _ _ => u

def Node.children : Node → List ((Int × Int) × Node)
  | .mk _ _ _ ch _ _ => ch

def Node.visits : Node → Nat
  | .mk _ _ _ _ v _ => v

def Node.wins : Node → Frac
  | .mk _ _ _ _ _ w => w

/-- One backpropagation update: `visits += 1; wins += result`. -/
def Node.bump (nd : Node) (result : Frac) : Node :=
  match nd with
  | .mk m p u ch v w => .mk m p u ch (v + 1) (w + result)

def Node.withUntried (nd : Node) (u : List Move) : Node :=
  match nd with
  | .mk m p _ ch v w => .mk m p u ch v w

/-- Replace the child stored under `key` (keys are unique by
construction, mirroring the dict's in-place update). -/
def Node.replaceChild (nd : Node) (key : Int × Int) (newCh : Node) : Node :=
  match nd with
  | .mk m p u ch v w =>
      .mk m p u (ch.map (fun kv => if kv.1 = key then (kv.1, newCh) else kv)) v w

/-- `node.children[key] = child`: append, or overwrite in place. -/
def Node.addChild : Node → (Int × Int) → Node → Node
  | .mk m p u ch v w, key, newCh =>
      if ch.any (fun kv => kv.1 = key) then
        .mk m p u (ch.map (fun kv => if kv.1 = key then (kv.1, newCh) else kv)) v w
      else .mk m p u (ch ++ [(key, newCh)]) v w

def Node.lookupChild (nd : Node) (key : Int × Int) : Option Node :=
  (nd.children.find? (fun kv => kv.1 = key)).map (fun kv => kv.2)

/-- `Node.uct_select_child`: the child maximising the UCT value, first
maximum winning (strict improvement only), starting from
`best_val = -1e9`.  `flog`/`fsqrt` stand for `math.log`/`math.sqrt`. -/
def uct_select_child (flog fsqrt : Frac → Frac) (c : Frac) (nd : Node) : Option Node :=
  (nd.children.foldl
    (fun (acc : Option Node × Frac) kv =>
      let ch := kv.2
      let val :=
        if ch.visits = 0 then (1e9 : Frac)
        else ch.wins / (ch.visits : Frac)
          + c * fsqrt (flog ((nd.visits : Frac) + 1) / (ch.visits : Frac))
      if Frac.blt acc.2 val then (some ch, val) else acc)
    (none, -(1e9 : Frac))).1

/-- The ambient behaviour the engine depends on but does not control:
the transcendental float functions, the global `random.random()` stream
(`rand k` is the k-th draw made by any rollout since the start of the
call) and the wall-clock deadline test before each iteration
(`timeOk k` is the k-th evaluation of `time.perf_counter() < t_end`). -/
structure Oracle where
  fexp : Frac → Frac
  flog : Frac → Frac
  fsqrt : Frac → Frac
  rand : Nat → Frac
  timeOk : Nat → Bool

/-- The engine.  `seed` records the constructor argument: the source
builds `self.rng = random.Random(seed)` from it, and that generator is
never consulted anywhere afterwards (`rollout_policy` draws from the
global `random` module instead). -/
structure MCTSBot where
  time_limit_s : Frac := 1.2
  uct_c : Frac := 1.35
  playout_limit : Nat := 9999
  rollout_candidates : Nat := 12
  expand_candidates : Nat := 30
  seed : Option Int := none
  root : Option Node := none
  root_player : Option Nat := none

/-- The node built by `_new_root` (which also records
`root_player = game.current`; that assignment is made at the call
sites, as in the source). -/
def MCTSBot.newRootNode (bot : MCTSBot) (g : HexGame) : Node :=
  Node.mk none g.current (frontier_moves g bot.expand_candidates) [] 0 0

/-- `_apply_move_to_tree`: re-root into the played move's child, or
discard the whole retained tree. -/
def MCTSBot.applyMoveToTree (bot : MCTSBot) (mv : Move) : MCTSBot :=
  match bot.root with
  | none => bot
  | some rt =>
    match rt.lookupChild (mv.r, mv.c) with
    | some nxt => { bot with root := some nxt }
    | none => { bot with root := none, root_player := none }

/-- `notify_opponent_moved`. -/
def MCTSBot.notify_opponent_moved (bot : MCTSBot) (mv : Move) : MCTSBot :=
  bot.applyMoveToTree mv

/-- The simulation loop: `while state.winner == EMPTY: play(rollout_policy(state))`.
`t` indexes the global random stream; fuel exhaustion (`none`) models
non-termination, and is proven impossible from reachable states. -/
def simLoop (orc : Oracle) (rollout_candidates : Nat) :
    Nat → HexGame → Nat → Option (HexGame × Nat)
  | fuel, state, t =>
    if state.winner ≠ EMPTY then some (state, t)
    else
      match fuel with
      | 0 => none
      | fuel + 1 =>
        match rollout_policy orc.fexp (orc.rand t) state rollout_candidates with
        | none => none
        | some mv => simLoop orc rollout_candidates fuel (state.play mv).2 (t + 1)

/-- One search iteration (selection, expansion, simulation,
backpropagation), by recursive descent from `nd` with the cloned state
`state`.  The returned `Option Frac` is the backpropagated result, or
`none` for the `continue` taken when an untried move fails to replay
(no statistics are then updated, but the popped untried list remains
popped).  The outer `Option` models exceptions and descent fuel. -/
def descend (orc : Oracle) (uct_c : Frac) (rollout_candidates expand_candidates : Nat)
    (rootPlayer : Nat) : Nat → Node → HexGame → Nat → Option (Node × Nat × Option Frac)
  | 0, _, _, _ => none
  | fuel + 1, nd, state, t =>
    if state.winner = EMPTY ∧ nd.untried = [] ∧ nd.children.isEmpty = false then
      match uct_select_child orc.flog orc.fsqrt uct_c nd with
      | none => none
      | some ch =>
        match ch.move with
        | none => none
        | some mv =>
          match descend orc uct_c rollout_candidates expand_candidates rootPlayer
              fuel ch (state.play mv).2 t with
          | none => none
          | some (ch2, t2, some res) =>
              some ((nd.replaceChild (mv.r, mv.c) ch2).bump res, t2, some res)
          | some (ch2, t2, none) => some (nd.replaceChild (mv.r, mv.c) ch2, t2, none)
    else
      match nd.untried with
      | mv :: rest =>
        if state.winner = EMPTY then
          if (state.play mv).1 then
            match simLoop orc rollout_candidates
                ((state.play mv).2.size * (state.play mv).2.size + 1) (state.play mv).2 t with
            | none => none
            | some (endSt, t2) =>
                some (((nd.withUntried rest).addChild (mv.r, mv.c)
                    (Node.mk (some mv) (state.play mv).2.current
                      (frontier_moves (state.play mv).2 expand_candidates) [] 1
                      (if endSt.winner = rootPlayer then 1 else 0))).bump
                    (if endSt.winner = rootPlayer then 1 else 0),
                  t2, some (if endSt.winner = rootPlayer then 1 else 0))
          else some (nd.withUntried rest, t, none)
        else
          match simLoop orc rollout_candidates (state.size * state.size + 1) state t with
          | none => none
          | some (endSt, t2) =>
              some (nd.bump (if endSt.winner = rootPlayer then 1 else 0), t2,
                some (if endSt.winner = rootPlayer then 1 else 0))
      | [] =>
        match simLoop orc rollout_candidates (state.size * state.size + 1) state t with
        | none => none
        | some (endSt, t2) =>
            some (nd.bump (if endSt.winner = rootPlayer then 1 else 0), t2,
              some (if endSt.winner = rootPlayer then 1 else 0))

/-- The bounded iteration loop of `choose`: `k` counts completed
playouts, the fuel is `playout_limit - k`, and `orc.timeOk k` is the
wall-clock test guarding iteration `k`.  The descent fuel `visits + 2`
exceeds the subtree depth of every tree the engine itself builds (each
level beyond the root required one expansion, and every expansion bumps
the root's visit count), so fuel exhaustion models no real run. -/
def searchLoop (orc : Oracle) (uct_c : Frac) (rollout_candidates expand_candidates : Nat)
    (rootPlayer : Nat) (g : HexGame) : Nat → Nat → Node → Nat → Option (Node × Nat)
  | 0, _, nd, t => some (nd, t)
  | fuel + 1, k, nd, t =>
    if orc.timeOk k then
      match descend orc uct_c rollout_candidates expand_candidates rootPlayer
          (nd.visits + 2) nd g.clone t with
      | none => none
      | some (nd', t', _) => searchLoop orc uct_c rollout_candidates expand_candidates
          rootPlayer g fuel (k + 1) nd' t'
    else some (nd, t)

/-- The first guard of `choose`'s prologue: rebuild when no root is
retained or its expected mover disagrees with the live mover. -/
def MCTSBot.rebuildNeeded (bot : MCTSBot) (g : HexGame) : Bool :=
  match bot.root with
  | none => true
  | some rt => rt.player_to_move ≠ g.current

/-- The root after the rebuild guard of `choose`. -/
def MCTSBot.preRoot (bot : MCTSBot) (g : HexGame) : Node :=
  if bot.rebuildNeeded g then bot.newRootNode g else bot.root.getD (bot.newRootNode g)

/-- `root_player` after the prologue of `choose` (set by `_new_root` on
rebuild, defaulted to the live mover when absent, kept otherwise). -/
def MCTSBot.prePlayer (bot : MCTSBot) (g : HexGame) : Option Nat :=
  if bot.rebuildNeeded g then some g.current
  else if bot.root_player = none then some g.current else bot.root_player

/-- The root after `choose`'s degenerate-repopulation step. -/
def MCTSBot.setupRoot (bot : MCTSBot) (g : HexGame) : Node :=
  if (bot.preRoot g).untried = [] ∧ (bot.preRoot g).children.isEmpty then
    (bot.preRoot g).withUntried (frontier_moves g bot.expand_candidates)
  else bot.preRoot g

/-- The root-acquisition prologue of `choose`: the engine state at the
start of the search loop, with its (always present) root. -/
def MCTSBot.chooseSetup (bot : MCTSBot) (g : HexGame) : MCTSBot × Node :=
  ({ bot with root := some (bot.setupRoot g), root_player := bot.prePlayer g },
   bot.setupRoot g)

/-- Python's `max(children.values(), key=visits)`: first maximum in
insertion order (strict improvement only). -/
def bestChild (l : List ((Int × Int) × Node)) : Option Node :=
  match l with
  | [] => none
  | kv :: rest => some (rest.foldl (fun b kv' => if kv'.2.visits > b.visits then kv'.2 else b) kv.2)

/-- `MCTSBot.choose`: the full per-decision protocol.  Returns the move
and the updated engine; `none` models a raised exception (or fuel
exhaustion of the internal loops). -/
def MCTSBot.choose (orc : Oracle) (bot : MCTSBot) (g : HexGame) : Option (Move × MCTSBot) :=
  match searchLoop orc bot.uct_c bot.rollout_candidates bot.expand_candidates
      ((bot.prePlayer g).getD EMPTY) g bot.playout_limit 0 (bot.setupRoot g) 0 with
  | none => none
  | some (rtF, _) =>
    if rtF.children.isEmpty then
      match frontier_moves g bot.expand_candidates with
      | m :: _ => some (m, { bot with root := some rtF, root_player := bot.prePlayer g })
      | [] =>
        match empty_cells g with
        | m :: _ => some (m, { bot with root := some rtF, root_player := bot.prePlayer g })
        | [] => none
    else
      match bestChild rtF.children with
      | none => none
      | some bc =>
        match bc.move with
        | none => none
        | some m =>
            some (m, MCTSBot.applyMoveToTree
              { bot with root := some rtF, root_player := bot.prePlayer g } m)

/-! ### Concrete instances used as witnesses and counterexamples -/

/-- A 3x3 board where RED has an unbroken top-to-bottom chain
(0,1)-(1,1)-(2,0) and BLUE has two disconnected stones. -/
def chainExampleBoard : HexGame :=
  { size := 3
    board := fun r c =>
      if (r, c) ∈ [((0 : Nat), (1 : Nat)), (1, 1), (2, 0)] then RED
      else if (r, c) ∈ [((1 : Nat), (0 : Nat)), (1, 2)] then BLUE else EMPTY
    current := BLUE
    winner := EMPTY
    last_move := none
    moves_played := 5 }

/-- A 3x3 board where RED's top-to-bottom chain is broken at (1,1) by a
BLUE stone. -/
def brokenExampleBoard : HexGame :=
  { size := 3
    board := fun r c =>
      if (r, c) ∈ [((0 : Nat), (1 : Nat)), (2, 0)] then RED
      else if (r, c) = ((1 : Nat), (1 : Nat)) then BLUE else EMPTY
    current := RED
    winner := EMPTY
    last_move := none
    moves_played := 3 }

/-- A finished 2x2 game (RED connected with (0,0)-(1,0)); one empty cell
remains, adjacent to occupied cells. -/
def gameWonExample : HexGame :=
  playAll (HexGame.init 2) [⟨0, 0⟩, ⟨0, 1⟩, ⟨1, 0⟩]

/-- A 2x2 game after one RED move, non-terminal. -/
def gameMidExample : HexGame := playAll (HexGame.init 2) [⟨0, 0⟩]

/-- An oracle with every float function constant (`exp = 1`, identity
log and sqrt), the global random stream constantly 0 and an unexpired
clock. -/
def orcZero : Oracle :=
  { fexp := fun _ => 1, flog := fun x => x, fsqrt := fun x => x,
    rand := fun _ => 0, timeOk := fun _ => true }

/-- The same oracle with a different state of the global `random`
module: the draws alternate between 0.6 and 0.1. -/
def orcAlt : Oracle := { orcZero with rand := fun k => if k % 2 = 0 then 0.6 else 0.1 }

/-- An engine constructed with seed 42 and a 5-playout budget. -/
def botSeeded : MCTSBot := { playout_limit := 5, seed := some 42 }

/-- A concrete heap-model state: a fresh 2x2 game with one move played. -/
def heapExample : Store × HexGameH := playAllH (initH [] 2) [⟨0, 0⟩]

/-- The consistency property of a search root with respect to the live
state `g`: every recorded child was reached by its keyed move from `g`,
so its stored mover is the mover after that move.  It holds for a root
freshly built from `g` and is preserved by the search loop. -/
def RootChildrenOK (g : HexGame) (nd : Node) : Prop :=
  ∀ kv ∈ nd.children, kv.2.move = some ⟨kv.1.1, kv.1.2⟩ ∧
    kv.2.player_to_move = ((g.play ⟨kv.1.1, kv.1.2⟩).2).current

/-- A stale retained child: it claims RED moves after (0,0), although on
the live empty board that move hands the turn to BLUE. -/
def staleChild : Node := Node.mk (some ⟨0, 0⟩) RED [] [] 3 0

/-- A retained root holding the stale child, with the expected mover
agreeing with the live board (so `choose` reuses it). -/
def staleRoot : Node := Node.mk none RED [] [((0, 0), staleChild)] 3 0

/-- An engine retaining the stale tree, with a zero iteration budget. -/
def staleBot : MCTSBot :=
  { playout_limit := 0, root := some staleRoot, root_player := some RED }

/-- The move returned by a first self-play `choose` on the empty 2x2
board. -/
def selfPlayMove : Move :=
  ((MCTSBot.choose orcZero botSeeded (HexGame.init 2)).getD (⟨0, 0⟩, botSeeded)).1

/-- The engine state after that first self-play `choose`. -/
def selfPlayBot : MCTSBot :=
  ((MCTSBot.choose orcZero botSeeded (HexGame.init 2)).getD (⟨0, 0⟩, botSeeded)).2

/-- The live state after the first self-play move is applied. -/
def selfPlayGame : HexGame := ((HexGame.init 2).play selfPlayMove).2

/-- The root and stream position produced by the search loop inside the
first self-play `choose` (the searched tree `choose` decides from). -/
def c6SearchOut : Node × Nat :=
  (searchLoop orcZero botSeeded.uct_c botSeeded.rollout_candidates
      botSeeded.expand_candidates ((botSeeded.prePlayer (HexGame.init 2)).getD EMPTY)
      (HexGame.init 2) botSeeded.playout_limit 0
      (botSeeded.setupRoot (HexGame.init 2)) 0).getD
    (botSeeded.setupRoot (HexGame.init 2), 0)

/-! ### The Y game

Auxiliary notions for the no-draw theorem behind C8 (a filled board
always has a winner): the game of Y on the triangular board
`{(i, j) | i + j ≤ k - 1}` under the same six-neighbour adjacency, and
its majority reduction.  An n×n Hex board embeds into the Y board of
size 2n-1 by painting the region `i ≥ n` RED and the region `j ≥ n`
BLUE. -/

/-- Majority of three booleans. -/
def majority (a b c : Bool) : Bool := (a && b) || (a && c) || (b && c)

/-- Membership in the size-`k` Y triangle. -/
def Ytri (k : Nat) (p : Nat × Nat) : Prop := p.1 + p.2 + 1 ≤ k

/-- The three cells of the next Y board that a reduced cell stands for. -/
def Tcell : Nat × Nat → List (Nat × Nat)
  | (i, j) => [(i, j), (i + 1, j), (i, j + 1)]

/-- The majority reduction of a colouring: each cell takes the majority
colour of its downward triple. -/
def Yreduce (c : Nat × Nat → Bool) : Nat × Nat → Bool :=
  fun p => majority (c p) (c (p.1 + 1, p.2)) (c (p.1, p.2 + 1))

/-- One connectivity step inside the triangle through cells of colour
`b`. -/
def Ystep (k : Nat) (c : Nat × Nat → Bool) (b : Bool) (p q : Nat × Nat) : Prop :=
  Ytri k q ∧ c q = b ∧ adjacentCells p q

/-- Connectivity through `b`-coloured triangle cells. -/
def Yconn (k : Nat) (c : Nat × Nat → Bool) (b : Bool) : Nat × Nat → Nat × Nat → Prop :=
  Relation.ReflTransGen (Ystep k c b)

/-- Colour `b` wins the size-`k` game of Y: some `b`-cell of the
`i = 0` side connects to a `b`-cell of the `j = 0` side and to a
`b`-cell of the far side `i + j = k - 1`. -/
def YWin (k : Nat) (c : Nat × Nat → Bool) (b : Bool) : Prop :=
  ∃ pa pb pc : Nat × Nat,
    Ytri k pa ∧ c pa = b ∧ pa.1 = 0 ∧
    Ytri k pb ∧ c pb = b ∧ pb.2 = 0 ∧
    Ytri k pc ∧ c pc = b ∧ pc.1 + pc.2 + 1 = k ∧
    Yconn k c b pa pb ∧ Yconn k c b pa pc

/-- The colouring of the Y board of size 2n-1 induced by an n×n Hex
board: RED (`true`) beyond the bottom edge, BLUE (`false`) beyond the
right edge, the stone colour inside. -/
def hexColor (g : HexGame) : Nat × Nat → Bool :=
  fun p =>
    if g.size ≤ p.1 then true
    else if g.size ≤ p.2 then false
    else decide (g.board p.1 p.2 = RED)

/-- The state invariant maintained by `play` from a fresh game: the
mover is a player, every cell is empty or a stone, and as long as no
winner is recorded neither player has a connecting chain. -/
def GoodState (g : HexGame) : Prop :=
  (g.current = RED ∨ g.current = BLUE) ∧
  (∀ r c : Nat, g.board r c = EMPTY ∨ g.board r c = RED ∨ g.board r c = BLUE) ∧
  (g.winner = EMPTY → ¬ hasChain g RED ∧ ¬ hasChain g BLUE)

/-- The number of empty cells of the board, the termination measure of
the rollout loop. -/
def emptyCount (g : HexGame) : Nat :=
  (cellsRowMajor g.size).countP (fun p => decide (g.board p.1 p.2 = EMPTY))

/-! ## Theorems

### Connectivity: the BFS of `has_won` computes chain reachability -/

theorem mem_neighborsN {n r c : Nat} {p : Nat × Nat} :
    p ∈ neighborsN n r c ↔ p.1 < n ∧ p.2 < n ∧ adjacentCells (r, c) p := by
  constructor
  · intro hp
    obtain ⟨d, hd, hx⟩ := List.mem_filterMap.1 hp
    split_ifs at hx with h
    · obtain ⟨h1, h2, h3, h4⟩ := h
      rw [Option.some_inj] at hx
      subst hx
      exact ⟨by omega, by omega, d, hd, by omega, by omega⟩
  · rintro ⟨h1, h2, d, hd, ha, hb⟩
    refine List.mem_filterMap.2 ⟨d, hd, ?_⟩
    have h : 0 ≤ (r : Int) + d.1 ∧ (r : Int) + d.1 < (n : Int) ∧
        0 ≤ (c : Int) + d.2 ∧ (c : Int) + d.2 < (n : Int) := by omega
    rw [if_pos h, Option.some_inj]
    refine Prod.ext_iff.2 ⟨?_, ?_⟩ <;> simp <;> omega

theorem stoneAt_of_mem_expand {g : HexGame} {player : Nat} {p : Nat × Nat}
    {rc : Nat × Nat} (h : p.1 < g.size ∧ p.2 < g.size ∧ g.board p.1 p.2 = player)
    (ha : adjacentCells rc p) : chainStep g player rc p :=
  ⟨⟨h.1, h.2.1, h.2.2⟩, ha⟩

theorem expandFold_vis_mono (g : HexGame) (player : Nat) (L : List (Nat × Nat))
    (vq : Finset (Nat × Nat) × List (Nat × Nat)) :
    vq.1 ⊆ (L.foldl (expandStep g player) vq).1 := by
  induction L generalizing vq with
  | nil => exact fun _ h => h
  | cons a L ih =>
      intro x hx
      refine ih (expandStep g player vq a) ?_
      unfold expandStep
      split
      · exact Finset.mem_insert_of_mem hx
      · exact hx

theorem expandFold_mem_vis (g : HexGame) (player : Nat) (L : List (Nat × Nat))
    (vq : Finset (Nat × Nat) × List (Nat × Nat)) {x : Nat × Nat}
    (hx : x ∈ (L.foldl (expandStep g player) vq).1) :
    x ∈ vq.1 ∨ (x ∈ L ∧ g.board x.1 x.2 = player) := by
  induction L generalizing vq with
  | nil => exact Or.inl hx
  | cons a L ih =>
      rcases ih (expandStep g player vq a) hx with h | h
      · unfold expandStep at h
        split at h
        · rcases Finset.mem_insert.1 h with rfl | h
          · next hcond => exact Or.inr ⟨List.mem_cons_self _ _, hcond.2⟩
          · exact Or.inl h
        · exact Or.inl h
      · exact Or.inr ⟨List.mem_cons_of_mem _ h.1, h.2⟩

theorem expandFold_covers (g : HexGame) (player : Nat) (L : List (Nat × Nat))
    (vq : Finset (Nat × Nat) × List (Nat × Nat)) {x : Nat × Nat}
    (hxL : x ∈ L) (hb : g.board x.1 x.2 = player) :
    x ∈ (L.foldl (expandStep g player) vq).1 := by
  induction L generalizing vq with
  | nil => cases hxL
  | cons a L ih =>
      rcases List.mem_cons.1 hxL with rfl | h
      · by_cases hv : x ∈ vq.1
        · exact expandFold_vis_mono g player L _ (by
            unfold expandStep
            split
            · exact Finset.mem_insert_of_mem hv
            · exact hv)
        · refine expandFold_vis_mono g player L _ ?_
          unfold expandStep
          rw [if_pos ⟨hv, hb⟩]
          exact Finset.mem_insert_self _ _
      · exact ih _ h

theorem expandFold_queue_sub (g : HexGame) (player : Nat) (L : List (Nat × Nat))
    (vq : Finset (Nat × Nat) × List (Nat × Nat))
    (h : ∀ x ∈ vq.2, x ∈ vq.1) :
    ∀ x ∈ (L.foldl (expandStep g player) vq).2, x ∈ (L.foldl (expandStep g player) vq).1 := by
  induction L generalizing vq with
  | nil => exact h
  | cons a L ih =>
      refine ih (expandStep g player vq a) ?_
      intro x hx
      unfold expandStep at hx ⊢
      split at hx
      · rcases List.mem_append.1 hx with h' | h'
        · next hcond =>
            rw [if_pos hcond]
            exact Finset.mem_insert_of_mem (h x h')
        · next hcond =>
            rw [if_pos hcond]
            simp only [List.mem_singleton] at h'
            subst h'
            exact Finset.mem_insert_self _ _
      · next hcond => rw [if_neg hcond]; exact h x hx

theorem expandFold_new_in_vis (g : HexGame) (player : Nat) (L : List (Nat × Nat))
    (vq : Finset (Nat × Nat) × List (Nat × Nat)) {x : Nat × Nat}
    (hx : x ∈ (L.foldl (expandStep g player) vq).2) :
    x ∈ vq.2 ∨ x ∈ (L.foldl (expandStep g player) vq).1 := by
  induction L generalizing vq with
  | nil => exact Or.inl hx
  | cons a L ih =>
      rcases ih (expandStep g player vq a) hx with h | h
      · unfold expandStep at h
        split at h
        · rcases List.mem_append.1 h with h' | h'
          · exact Or.inl h'
          · simp only [List.mem_singleton] at h'
            subst h'
            refine Or.inr (expandFold_vis_mono g player L _ ?_)
            unfold expandStep
            next hcond =>
              rw [if_pos hcond]
              exact Finset.mem_insert_self _ _
        · exact Or.inl h
      · exact Or.inr h

theorem expandFold_card_len (g : HexGame) (player : Nat) (L : List (Nat × Nat))
    (vq : Finset (Nat × Nat) × List (Nat × Nat)) :
    (L.foldl (expandStep g player) vq).1.card + vq.2.length =
      vq.1.card + (L.foldl (expandStep g player) vq).2.length := by
  induction L generalizing vq with
  | nil => rfl
  | cons a L ih =>
      rw [List.foldl_cons]
      have h := ih (expandStep g player vq a)
      by_cases hcond : a ∉ vq.1 ∧ g.board a.1 a.2 = player
      · simp only [expandStep, if_pos hcond] at h ⊢
        rw [Finset.card_insert_of_not_mem hcond.1, List.length_append] at h
        simp only [List.length_singleton] at h
        omega
      · simp only [expandStep, if_neg hcond] at h ⊢
        exact h

theorem expandFold_vis_square (g : HexGame) (player : Nat) (L : List (Nat × Nat))
    (vq : Finset (Nat × Nat) × List (Nat × Nat))
    (hL : ∀ x ∈ L, x.1 < g.size ∧ x.2 < g.size)
    (hv : ∀ x ∈ vq.1, x.1 < g.size ∧ x.2 < g.size) :
    ∀ x ∈ (L.foldl (expandStep g player) vq).1, x.1 < g.size ∧ x.2 < g.size := by
  intro x hx
  rcases expandFold_mem_vis g player L vq hx with h | h
  · exact hv x h
  · exact hL x h.1

theorem expandFold_queue_mono (g : HexGame) (player : Nat) (L : List (Nat × Nat))
    (vq : Finset (Nat × Nat) × List (Nat × Nat)) {x : Nat × Nat}
    (hx : x ∈ vq.2) : x ∈ (L.foldl (expandStep g player) vq).2 := by
  induction L generalizing vq with
  | nil => exact hx
  | cons a L ih =>
      refine ih (expandStep g player vq a) ?_
      unfold expandStep
      split
      · exact List.mem_append.2 (Or.inl hx)
      · exact hx

theorem expandFold_vis_to_queue (g : HexGame) (player : Nat) (L : List (Nat × Nat))
    (vq : Finset (Nat × Nat) × List (Nat × Nat)) {x : Nat × Nat}
    (hx : x ∈ (L.foldl (expandStep g player) vq).1) :
    x ∈ vq.1 ∨ x ∈ (L.foldl (expandStep g player) vq).2 := by
  induction L generalizing vq with
  | nil => exact Or.inl hx
  | cons a L ih =>
      rcases ih (expandStep g player vq a) hx with h | h
      · by_cases hcond : a ∉ vq.1 ∧ g.board a.1 a.2 = player
        · rw [expandStep, if_pos hcond] at h
          rcases Finset.mem_insert.1 h with rfl | h'
          · refine Or.inr (expandFold_queue_mono g player L _ ?_)
            rw [expandStep, if_pos hcond]
            exact List.mem_append.2 (Or.inr (List.mem_singleton.2 rfl))
          · exact Or.inl h'
        · rw [expandStep, if_neg hcond] at h
          exact Or.inl h
      · exact Or.inr h

theorem bfsLoop_sound (g : HexGame) (player : Nat) (S : Nat × Nat → Prop) :
    ∀ (fuel : Nat) (vis : Finset (Nat × Nat)) (q : List (Nat × Nat)),
    (∀ x ∈ q, x ∈ vis) →
    (∀ x ∈ vis, ∃ s, S s ∧ Relation.ReflTransGen (chainStep g player) s x) →
    bfsLoop g player fuel vis q = some true →
    ∃ s t, S s ∧ Relation.ReflTransGen (chainStep g player) s t ∧
      isEnd player g.size t := by
  intro fuel
  induction fuel with
  | zero =>
      intro vis q hq hr h
      cases q with
      | nil => cases h
      | cons rc q => cases h
  | succ fuel ih =>
      intro vis q hq hr h
      cases q with
      | nil => cases h
      | cons rc q =>
          rw [bfsLoop] at h
          split_ifs at h with hend
          · obtain ⟨s, hs, hrt⟩ := hr rc (hq rc (List.mem_cons_self rc q))
            exact ⟨s, rc, hs, hrt, hend⟩
          · refine ih _ _ ?_ ?_ h
            · exact expandFold_queue_sub g player _ (vis, q) (fun x hx =>
                hq x (List.mem_cons_of_mem rc hx))
            · intro x hx
              rcases expandFold_mem_vis g player _ (vis, q) hx with h' | h'
              · exact hr x h'
              · obtain ⟨hmem, hb⟩ := h'
                obtain ⟨hb1, hb2, hadj⟩ := mem_neighborsN.1 hmem
                obtain ⟨s, hs, hrt⟩ := hr rc (hq rc (List.mem_cons_self rc q))
                exact ⟨s, hs, hrt.tail ⟨⟨hb1, hb2, hb⟩, hadj⟩⟩

theorem bfsLoop_complete (g : HexGame) (player : Nat) :
    ∀ (fuel : Nat) (vis : Finset (Nat × Nat)) (q : List (Nat × Nat)),
    (∀ x ∈ q, x ∈ vis) →
    (∀ x ∈ vis, x ∉ q →
      ¬ isEnd player g.size x ∧ ∀ y, chainStep g player x y → y ∈ vis) →
    bfsLoop g player fuel vis q = some false →
    ∀ x ∈ vis, ∀ t, Relation.ReflTransGen (chainStep g player) x t →
      ¬ isEnd player g.size t := by
  intro fuel
  induction fuel with
  | zero =>
      intro vis q hq hcl h
      cases q with
      | nil =>
          intro x hx t hrt
          have ht : t ∈ vis := by
            induction hrt with
            | refl => exact hx
            | tail hab hbc ih2 => exact (hcl _ ih2 (by simp)).2 _ hbc
          exact (hcl t ht (by simp)).1
      | cons rc q => cases h
  | succ fuel ih =>
      intro vis q hq hcl h
      cases q with
      | nil =>
          intro x hx t hrt
          have ht : t ∈ vis := by
            induction hrt with
            | refl => exact hx
            | tail hab hbc ih2 => exact (hcl _ ih2 (by simp)).2 _ hbc
          exact (hcl t ht (by simp)).1
      | cons rc q =>
          rw [bfsLoop] at h
          split_ifs at h with hend
          · cases h
          · have hmain := ih _ _ (expandFold_queue_sub g player _ (vis, q)
              (fun x hx => hq x (List.mem_cons_of_mem rc hx))) ?_ h
            · intro x hx t hrt
              exact hmain x (expandFold_vis_mono g player _ (vis, q) hx) t hrt
            · intro x hx hxq
              rcases expandFold_vis_to_queue g player _ (vis, q) hx with hxv | hxq'
              · by_cases hxrc : x = rc
                · subst hxrc
                  refine ⟨hend, fun y hy => ?_⟩
                  obtain ⟨⟨hy1, hy2, hy3⟩, hadj⟩ := hy
                  exact expandFold_covers g player _ (vis, q)
                    (mem_neighborsN.2 ⟨hy1, hy2, hadj⟩) hy3
                · by_cases hxq0 : x ∈ q
                  · exact absurd (expandFold_queue_mono g player _ (vis, q) hxq0) hxq
                  · have hnotin : x ∉ rc :: q := by
                      intro hmem
                      rcases List.mem_cons.1 hmem with h' | h'
                      · exact hxrc h'
                      · exact hxq0 h'
                    obtain ⟨he, hcl2⟩ := hcl x hxv hnotin
                    exact ⟨he, fun y hy =>
                      expandFold_vis_mono g player _ (vis, q) (hcl2 y hy)⟩
              · exact absurd hxq' hxq

theorem bfsLoop_ne_none (g : HexGame) (player : Nat) :
    ∀ (fuel : Nat) (vis : Finset (Nat × Nat)) (q : List (Nat × Nat)),
    (∀ x ∈ vis, x.1 < g.size ∧ x.2 < g.size) →
    q.length + g.size * g.size ≤ fuel + vis.card →
    bfsLoop g player fuel vis q ≠ none := by
  intro fuel
  have hcard : ∀ vis : Finset (Nat × Nat), (∀ x ∈ vis, x.1 < g.size ∧ x.2 < g.size) →
      vis.card ≤ g.size * g.size := by
    intro vis hv
    have hsub : vis ⊆ Finset.range g.size ×ˢ Finset.range g.size := by
      intro x hx
      exact Finset.mem_product.2 ⟨Finset.mem_range.2 (hv x hx).1,
        Finset.mem_range.2 (hv x hx).2⟩
    calc vis.card ≤ (Finset.range g.size ×ˢ Finset.range g.size).card :=
          Finset.card_le_card hsub
      _ = g.size * g.size := by rw [Finset.card_product, Finset.card_range]
  induction fuel with
  | zero =>
      intro vis q hv hm
      cases q with
      | nil => simp [bfsLoop]
      | cons rc q =>
          have := hcard vis hv
          simp only [List.length_cons] at hm
          omega
  | succ fuel ih =>
      intro vis q hv hm
      cases q with
      | nil => simp [bfsLoop]
      | cons rc q =>
          rw [bfsLoop]
          split_ifs with hend
          · simp
          · refine ih _ _ ?_ ?_
            · exact expandFold_vis_square g player _ (vis, q)
                (fun x hx => ⟨(mem_neighborsN.1 hx).1, (mem_neighborsN.1 hx).2.1⟩) hv
            · have hlen := expandFold_card_len g player
                (neighborsN g.size rc.1 rc.2) (vis, q)
              simp only [List.length_cons] at hm
              simp only [bfsExpand]
              dsimp only at hlen ⊢
              omega

theorem seeds_bounds {g : HexGame} {player : Nat} {x : Nat × Nat}
    (hx : x ∈ seeds g player) : x.1 < g.size ∧ x.2 < g.size := by
  unfold seeds at hx
  split_ifs at hx with hp <;>
  · obtain ⟨r, hr, h⟩ := List.mem_filterMap.1 hx
    rw [List.mem_range] at hr
    split_ifs at h with hb
    · rw [Option.some_inj] at h
      subst h
      exact ⟨by omega, by omega⟩

theorem seeds_length_le (g : HexGame) (player : Nat) :
    (seeds g player).length ≤ g.size := by
  unfold seeds
  split_ifs <;>
    exact le_trans (List.length_filterMap_le _ _) (le_of_eq (List.length_range _))

theorem mem_seeds_red {g : HexGame} {player : Nat} (hp : player ≠ BLUE) {x : Nat × Nat} :
    x ∈ seeds g player ↔ x.1 = 0 ∧ x.2 < g.size ∧ g.board 0 x.2 = RED := by
  unfold seeds
  rw [if_neg hp]
  constructor
  · intro hx
    obtain ⟨c, hc, h⟩ := List.mem_filterMap.1 hx
    rw [List.mem_range] at hc
    split_ifs at h with hb
    · rw [Option.some_inj] at h
      subst h
      exact ⟨rfl, hc, hb⟩
  · rintro ⟨h1, h2, h3⟩
    refine List.mem_filterMap.2 ⟨x.2, List.mem_range.2 h2, ?_⟩
    rw [if_pos h3, Option.some_inj]
    exact Prod.ext_iff.2 ⟨h1.symm, rfl⟩

theorem mem_seeds_blue {g : HexGame} {x : Nat × Nat} :
    x ∈ seeds g BLUE ↔ x.2 = 0 ∧ x.1 < g.size ∧ g.board x.1 0 = BLUE := by
  unfold seeds
  rw [if_pos rfl]
  constructor
  · intro hx
    obtain ⟨r, hr, h⟩ := List.mem_filterMap.1 hx
    rw [List.mem_range] at hr
    split_ifs at h with hb
    · rw [Option.some_inj] at h
      subst h
      exact ⟨rfl, hr, hb⟩
  · rintro ⟨h1, h2, h3⟩
    refine List.mem_filterMap.2 ⟨x.1, List.mem_range.2 h2, ?_⟩
    rw [if_pos h3, Option.some_inj]
    exact Prod.ext_iff.2 ⟨rfl, h1.symm⟩

theorem has_won_iff_rt (g : HexGame) (player : Nat) :
    g.has_won player = true ↔
    ∃ s t, s ∈ seeds g player ∧ Relation.ReflTransGen (chainStep g player) s t ∧
      isEnd player g.size t := by
  unfold HexGame.has_won
  constructor
  · intro h
    cases hb : bfsLoop g player (g.size * g.size + g.size + 1)
        (seeds g player).toFinset (seeds g player) with
    | none => rw [hb] at h; cases h
    | some b =>
        rw [hb] at h
        simp only [Option.getD_some] at h
        subst h
        exact bfsLoop_sound g player (· ∈ seeds g player) _ _ _
          (fun x hx => List.mem_toFinset.2 hx)
          (fun x hx => ⟨x, List.mem_toFinset.1 hx, Relation.ReflTransGen.refl⟩) hb
  · rintro ⟨s, t, hs, hrt, hend⟩
    cases hb : bfsLoop g player (g.size * g.size + g.size + 1)
        (seeds g player).toFinset (seeds g player) with
    | none =>
        exact absurd hb (bfsLoop_ne_none g player _ _ _
          (fun x hx => seeds_bounds (List.mem_toFinset.1 hx))
          (by have := seeds_length_le g player; omega))
    | some b =>
        cases b with
        | true => rfl
        | false =>
            have hmain := bfsLoop_complete g player _ _ _
              (fun x hx => List.mem_toFinset.2 hx)
              (fun x hx hxq => absurd (List.mem_toFinset.1 hx) hxq) hb
            exact absurd hend (hmain s (List.mem_toFinset.2 hs) t hrt)

theorem has_won_iff_hasChain (g : HexGame) (player : Nat)
    (hp : player = RED ∨ player = BLUE) :
    g.has_won player = true ↔ hasChain g player := by
  rw [has_won_iff_rt]
  unfold hasChain
  rcases hp with rfl | rfl
  · constructor
    · rintro ⟨s, t, hs, hrt, hend⟩
      obtain ⟨h1, h2, h3⟩ := (mem_seeds_red (by decide)).1 hs
      refine ⟨s, t, ⟨by omega, h2, by rw [← h1] at h3; exact h3⟩, ?_, hrt, hend⟩
      simp only [startEdge, if_neg (by decide : ¬ RED = BLUE)]
      exact h1
    · rintro ⟨s, t, ⟨hb1, hb2, hb3⟩, hedge, hrt, hend⟩
      simp only [startEdge, if_neg (by decide : ¬ RED = BLUE)] at hedge
      refine ⟨s, t, (mem_seeds_red (by decide)).2 ⟨hedge, hb2, ?_⟩, hrt, hend⟩
      rw [← hedge]
      exact hb3
  · constructor
    · rintro ⟨s, t, hs, hrt, hend⟩
      obtain ⟨h1, h2, h3⟩ := mem_seeds_blue.1 hs
      refine ⟨s, t, ⟨h2, by omega, by rw [← h1] at h3; exact h3⟩, ?_, hrt, hend⟩
      simp only [startEdge, if_pos rfl]
      exact h1
    · rintro ⟨s, t, ⟨hb1, hb2, hb3⟩, hedge, hrt, hend⟩
      simp only [startEdge, if_pos rfl] at hedge
      refine ⟨s, t, mem_seeds_blue.2 ⟨hedge, hb1, ?_⟩, hrt, hend⟩
      rw [← hedge]
      exact hb3

theorem rt_to_path {g : HexGame} {player : Nat} {s t : Nat × Nat}
    (hst : stoneAt g player s)
    (hrt : Relation.ReflTransGen (chainStep g player) s t) :
    ∃ path : List (Nat × Nat), path ≠ [] ∧ (∀ x ∈ path, stoneAt g player x) ∧
      path.Chain' adjacentCells ∧ path.headD (0, 0) = s ∧ path.getLastD (0, 0) = t := by
  induction hrt with
  | refl => exact ⟨[s], by simp, by simpa using hst, List.chain'_singleton s, rfl, rfl⟩
  | @tail b c hab hbc ih =>
      obtain ⟨path, hne, hall, hch, hh, hl⟩ := ih
      refine ⟨path ++ [c], by simp, ?_, ?_, ?_, ?_⟩
      · intro x hx
        rcases List.mem_append.1 hx with h' | h'
        · exact hall x h'
        · rw [List.mem_singleton.1 h']
          exact hbc.1
      · refine List.chain'_append.2 ⟨hch, List.chain'_singleton c, ?_⟩
        intro x hx y hy
        simp only [List.head?_cons, Option.mem_def, Option.some_inj] at hy
        subst hy
        have hxb : x = b := by
          have h1 : path.getLast? = some (path.getLastD (0, 0)) := by
            cases path with
            | nil => exact absurd rfl hne
            | cons a l => rw [List.getLastD_eq_getLast?, List.getLast?_cons]; simp
          rw [h1] at hx
          rw [Option.mem_def, Option.some_inj] at hx
          rw [← hx, hl]
        subst hxb
        exact hbc.2
      · cases path with
        | nil => exact absurd rfl hne
        | cons a l => simpa using hh
      · rw [List.getLastD_eq_getLast?, List.getLast?_concat]
        rfl

theorem path_to_rt {g : HexGame} {player : Nat} :
    ∀ path : List (Nat × Nat), path ≠ [] → (∀ x ∈ path, stoneAt g player x) →
    path.Chain' adjacentCells →
    Relation.ReflTransGen (chainStep g player) (path.headD (0, 0)) (path.getLastD (0, 0))
  | [], hne, _, _ => absurd rfl hne
  | [x], _, _, _ => by simp; exact Relation.ReflTransGen.refl
  | x :: y :: rest, _, hall, hch => by
      have hxy : adjacentCells x y := (List.chain'_cons.1 hch).1
      have ih := path_to_rt (y :: rest) (by simp)
        (fun z hz => hall z (List.mem_cons_of_mem x hz)) (List.chain'_cons.1 hch).2
      have hstep : chainStep g player x y :=
        ⟨hall y (List.mem_cons_of_mem x (List.mem_cons_self y rest)), hxy⟩
      have hlast : (x :: y :: rest).getLastD (0, 0) = (y :: rest).getLastD (0, 0) := by
        rw [List.getLastD_eq_getLast?, List.getLastD_eq_getLast?, List.getLast?_cons,
          List.getLast?_cons]
        simp
      rw [hlast]
      exact Relation.ReflTransGen.head hstep (by simpa using ih)

theorem hasChain_iff_exists_path (g : HexGame) (player : Nat) :
    hasChain g player ↔ ∃ path, isChain g player path := by
  constructor
  · rintro ⟨s, t, hstone, hedge, hrt, hend⟩
    obtain ⟨path, hne, hall, hch, hh, hl⟩ := rt_to_path hstone hrt
    exact ⟨path, hne, hall, hch, by rw [hh]; exact hedge, by rw [hl]; exact hend⟩
  · rintro ⟨path, hne, hall, hch, hedge, hend⟩
    refine ⟨path.headD (0, 0), path.getLastD (0, 0), ?_, hedge, path_to_rt path hne hall hch, hend⟩
    apply hall
    cases path with
    | nil => exact absurd rfl hne
    | cons a l => exact List.mem_cons_self a l

/-- C4: `hasWon(state, player)` is true exactly when the player has a
chain of stones, connected under the six-neighbour adjacency, from a
stone on the player's start edge (top row for RED, left column for
BLUE) to a cell on the opposite edge; in particular the unbroken
example chain wins for RED and no other player, and the broken example
chain does not win. -/
theorem claim_C4_hasWon_connectivity :
    (∀ (g : HexGame) (player : Nat), player = RED ∨ player = BLUE →
      (g.has_won player = true ↔ ∃ path, isChain g player path))
    ∧ chainExampleBoard.has_won RED = true
    ∧ chainExampleBoard.has_won BLUE = false
    ∧ brokenExampleBoard.has_won RED = false := by
  refine ⟨?_, by decide, by decide, by decide⟩
  intro g player hp
  rw [has_won_iff_hasChain g player hp, hasChain_iff_exists_path]

/-- Witness for C4 at a concrete input: RED is one of the two players,
and on the example board the equivalence holds concretely. -/
theorem claim_C4_witness :
    (RED = RED ∨ RED = BLUE) ∧
    (chainExampleBoard.has_won RED = true ↔ ∃ path, isChain chainExampleBoard RED path) :=
  ⟨Or.inl rfl, claim_C4_hasWon_connectivity.1 chainExampleBoard RED (Or.inl rfl)⟩

/-! ### `attemptMove` (`play`) -/

theorem play_fail (g : HexGame) (mv : Move)
    (h : g.winner ≠ EMPTY ∨ ¬ g.in_bounds mv.r mv.c ∨
      g.board mv.r.toNat mv.c.toNat ≠ EMPTY) :
    g.play mv = (false, g) := by
  unfold HexGame.play
  by_cases h1 : g.winner ≠ EMPTY
  · rw [if_pos h1]
  · rw [if_neg h1]
    by_cases h2 : ¬ g.in_bounds mv.r mv.c
    · rw [if_pos h2]
    · rw [if_neg h2]
      by_cases h3 : g.board mv.r.toNat mv.c.toNat ≠ EMPTY
      · rw [if_pos h3]
      · rcases h with h | h | h
        · exact absurd h h1
        · exact absurd h h2
        · exact absurd h h3

theorem play_success (g : HexGame) (mv : Move) (h1 : g.winner = EMPTY)
    (h2 : g.in_bounds mv.r mv.c) (h3 : g.board mv.r.toNat mv.c.toNat = EMPTY) :
    g.play mv =
      if (g.placed mv).has_won g.current then
        (true, { g.placed mv with winner := g.current })
      else
        (true, { g.placed mv with current := if g.current = RED then BLUE else RED }) := by
  unfold HexGame.play
  rw [if_neg (not_not_intro h1), if_neg (not_not_intro h2), if_neg (not_not_intro h3)]

/-- C2: `attemptMove` fails with no mutation exactly on a finished game,
an out-of-bounds move or an occupied cell; otherwise it returns true,
places the mover's stone on exactly the target cell, records the last
move, bumps the counter, sets the winner to the mover iff the mover has
a connecting chain afterwards, and swaps the mover iff no win
occurred. -/
theorem claim_C2_attemptMove (g : HexGame) (mv : Move) :
    ((g.winner ≠ EMPTY ∨ ¬ g.in_bounds mv.r mv.c ∨
        g.board mv.r.toNat mv.c.toNat ≠ EMPTY) →
      g.play mv = (false, g))
    ∧ (g.winner = EMPTY → g.in_bounds mv.r mv.c →
        g.board mv.r.toNat mv.c.toNat = EMPTY →
      (g.play mv).1 = true
      ∧ (g.play mv).2.size = g.size
      ∧ (∀ r c : Nat, (g.play mv).2.board r c =
          if r = mv.r.toNat ∧ c = mv.c.toNat then g.current else g.board r c)
      ∧ (g.play mv).2.last_move = some mv
      ∧ (g.play mv).2.moves_played = g.moves_played + 1
      ∧ (g.current = RED ∨ g.current = BLUE →
          ((∃ path, isChain (g.play mv).2 g.current path) →
            (g.play mv).2.winner = g.current ∧ (g.play mv).2.current = g.current)
          ∧ (¬ (∃ path, isChain (g.play mv).2 g.current path) →
            (g.play mv).2.winner = EMPTY ∧
              (g.play mv).2.current = (if g.current = RED then BLUE else RED)))) := by
  refine ⟨play_fail g mv, ?_⟩
  intro h1 h2 h3
  rw [play_success g mv h1 h2 h3]
  by_cases hwon : (g.placed mv).has_won g.current
  · rw [if_pos hwon]
    refine ⟨rfl, rfl, fun r c => rfl, rfl, rfl, ?_⟩
    intro hp
    have hchain : ∃ path, isChain { g.placed mv with winner := g.current } g.current path := by
      rw [← hasChain_iff_exists_path]
      have := (has_won_iff_hasChain (g.placed mv) g.current hp).1 hwon
      obtain ⟨s, t, hstone, hedge, hrt, hend⟩ := this
      exact ⟨s, t, hstone, hedge, hrt, hend⟩
    refine ⟨fun _ => ⟨rfl, rfl⟩, fun hc => absurd hchain hc⟩
  · rw [if_neg hwon]
    refine ⟨rfl, rfl, fun r c => rfl, rfl, rfl, ?_⟩
    intro hp
    have hnochain : ¬ ∃ path,
        isChain { g.placed mv with current := if g.current = RED then BLUE else RED }
          g.current path := by
      intro hc
      apply hwon
      rw [has_won_iff_hasChain (g.placed mv) g.current hp, hasChain_iff_exists_path]
      obtain ⟨path, hne, hall, hch, hh, hl⟩ := hc
      exact ⟨path, hne, hall, hch, hh, hl⟩
    exact ⟨fun hc => absurd hc hnochain, fun _ => ⟨h1, rfl⟩⟩

/-- Witness for C2: a concrete successful move on the mid-game board and
all its postconditions. -/
theorem claim_C2_witness :
    gameMidExample.winner = EMPTY ∧ gameMidExample.in_bounds 1 0 ∧
      gameMidExample.board 1 0 = EMPTY ∧
      ((gameMidExample.play ⟨1, 0⟩).1 = true
      ∧ (gameMidExample.play ⟨1, 0⟩).2.size = gameMidExample.size
      ∧ (∀ r c : Nat, (gameMidExample.play ⟨1, 0⟩).2.board r c =
          if r = (1 : Int).toNat ∧ c = (0 : Int).toNat then gameMidExample.current
          else gameMidExample.board r c)
      ∧ (gameMidExample.play ⟨1, 0⟩).2.last_move = some ⟨1, 0⟩
      ∧ (gameMidExample.play ⟨1, 0⟩).2.moves_played = gameMidExample.moves_played + 1
      ∧ (gameMidExample.current = RED ∨ gameMidExample.current = BLUE →
          ((∃ path, isChain (gameMidExample.play ⟨1, 0⟩).2 gameMidExample.current path) →
            (gameMidExample.play ⟨1, 0⟩).2.winner = gameMidExample.current ∧
              (gameMidExample.play ⟨1, 0⟩).2.current = gameMidExample.current)
          ∧ (¬ (∃ path, isChain (gameMidExample.play ⟨1, 0⟩).2 gameMidExample.current path) →
            (gameMidExample.play ⟨1, 0⟩).2.winner = EMPTY ∧
              (gameMidExample.play ⟨1, 0⟩).2.current =
                (if gameMidExample.current = RED then BLUE else RED)))) :=
  ⟨by decide, by decide, by decide,
    (claim_C2_attemptMove gameMidExample ⟨1, 0⟩).2 (by decide) (by decide) (by decide)⟩

/-! ### Candidate-set fallback (`frontier_moves`) -/

/-- C3 counterexample: in the finished 2x2 game the frontier set has one
member (fewer than 8), yet `frontier_moves` returns the one empty cell
while the legal-move list is empty (the game has a winner). -/
theorem claim_C3_counterexample :
    (frontierCandCells gameWonExample).length < 8 ∧
      frontier_moves gameWonExample 30 ≠ gameWonExample.legal_moves := by
  decide

/-- C3 amended: when the heuristic frontier set has fewer than 8 members
`frontier_moves` falls back to the full list of empty cells, which
coincides with the legal-move list exactly when the state has no
winner. -/
theorem claim_C3_small_frontier_fallback (g : HexGame) (max_candidates : Nat)
    (h : (frontierCandCells g).length < 8) :
    frontier_moves g max_candidates = empty_cells g ∧
      (g.winner = EMPTY → frontier_moves g max_candidates = g.legal_moves) := by
  have hmain : frontier_moves g max_candidates = empty_cells g := by
    unfold frontier_moves
    rw [if_pos (by simpa using h)]
  refine ⟨hmain, fun hw => ?_⟩
  rw [hmain]
  unfold HexGame.legal_moves empty_cells
  rw [if_neg (not_not_intro hw)]

/-- Witness for C3 (amended): the finished 2x2 game has a small frontier
set and `frontier_moves` equals `empty_cells` there; on the one-stone
board (no winner) it also equals `legal_moves`. -/
theorem claim_C3_witness :
    ((frontierCandCells gameWonExample).length < 8 ∧
      frontier_moves gameWonExample 30 = empty_cells gameWonExample)
    ∧ ((frontierCandCells gameMidExample).length < 8 ∧ gameMidExample.winner = EMPTY ∧
      frontier_moves gameMidExample 30 = gameMidExample.legal_moves) :=
  ⟨⟨by decide, (claim_C3_small_frontier_fallback gameWonExample 30 (by decide)).1⟩,
   ⟨by decide, by decide,
    (claim_C3_small_frontier_fallback gameMidExample 30 (by decide)).2 (by decide)⟩⟩

/-! ### Rollout-policy safety -/

theorem mem_emptyCellsList {g : HexGame} {m : Move} :
    m ∈ emptyCellsList g ↔
      ∃ r c : Nat, r < g.size ∧ c < g.size ∧ g.board r c = EMPTY ∧
        m = ⟨(r : Int), (c : Int)⟩ := by
  unfold emptyCellsList
  rw [List.mem_flatMap]
  constructor
  · rintro ⟨r, hr, hm⟩
    obtain ⟨c, hc, h⟩ := List.mem_filterMap.1 hm
    split_ifs at h with hb
    rw [Option.some_inj] at h
    exact ⟨r, c, List.mem_range.1 hr, List.mem_range.1 hc, hb, h.symm⟩
  · rintro ⟨r, c, hr, hc, hb, rfl⟩
    exact ⟨r, List.mem_range.2 hr,
      List.mem_filterMap.2 ⟨c, List.mem_range.2 hc, by rw [if_pos hb]⟩⟩

theorem mem_cellsRowMajor {n : Nat} {rc : Nat × Nat} :
    rc ∈ cellsRowMajor n ↔ rc.1 < n ∧ rc.2 < n := by
  unfold cellsRowMajor
  rw [List.mem_flatMap]
  constructor
  · rintro ⟨r, hr, hm⟩
    obtain ⟨c, hc, h⟩ := List.mem_map.1 hm
    subst h
    exact ⟨List.mem_range.1 hr, List.mem_range.1 hc⟩
  · rintro ⟨h1, h2⟩
    exact ⟨rc.1, List.mem_range.2 h1,
      List.mem_map.2 ⟨rc.2, List.mem_range.2 h2, rfl⟩⟩

theorem anyStone_false {g : HexGame} (h : anyStone g = false) :
    ∀ r c : Nat, r < g.size → c < g.size → g.board r c = EMPTY := by
  intro r c hr hc
  unfold anyStone at h
  rw [List.any_eq_false] at h
  have := h (r, c) (mem_cellsRowMajor.2 ⟨hr, hc⟩)
  simpa using this

theorem mem_insertIfAbsent {x y : Nat × Nat} {l : List (Nat × Nat)} :
    x ∈ insertIfAbsent y l ↔ x ∈ l ∨ x = y := by
  unfold insertIfAbsent
  split_ifs with h
  · constructor
    · exact Or.inl
    · rintro (h' | rfl)
      · exact h'
      · exact h
  · rw [List.mem_append, List.mem_singleton]

theorem frontierInner_mem (g : HexGame) (L : List (Nat × Nat))
    (acc : List (Nat × Nat)) {x : Nat × Nat}
    (hx : x ∈ L.foldl
      (fun acc p => if g.board p.1 p.2 = EMPTY then insertIfAbsent p acc else acc) acc) :
    x ∈ acc ∨ (x ∈ L ∧ g.board x.1 x.2 = EMPTY) := by
  induction L generalizing acc with
  | nil => exact Or.inl hx
  | cons a L ih =>
      rcases ih _ hx with h | h
      · dsimp only at h
        split_ifs at h with hb
        · rcases mem_insertIfAbsent.1 h with h' | rfl
          · exact Or.inl h'
          · exact Or.inr ⟨List.mem_cons_self _ _, hb⟩
        · exact Or.inl h
      · exact Or.inr ⟨List.mem_cons_of_mem _ h.1, h.2⟩

theorem frontierOuter_mem (g : HexGame) (cells : List (Nat × Nat))
    (acc : List (Nat × Nat)) {x : Nat × Nat}
    (hx : x ∈ cells.foldl
      (fun acc rc =>
        if g.board rc.1 rc.2 ≠ EMPTY then
          (neighborsN g.size rc.1 rc.2).foldl
            (fun acc p => if g.board p.1 p.2 = EMPTY then insertIfAbsent p acc else acc) acc
        else acc) acc) :
    x ∈ acc ∨ ∃ rc : Nat × Nat, g.board rc.1 rc.2 ≠ EMPTY ∧
      x ∈ neighborsN g.size rc.1 rc.2 ∧ g.board x.1 x.2 = EMPTY := by
  induction cells generalizing acc with
  | nil => exact Or.inl hx
  | cons a cells ih =>
      rcases ih _ hx with h | h
      · dsimp only at h
        split_ifs at h with hb
        · rcases frontierInner_mem g _ _ h with h' | h'
          · exact Or.inl h'
          · exact Or.inr ⟨a, hb, h'.1, h'.2⟩
        · exact Or.inl h
      · exact Or.inr h

theorem centerFold_mem (L : List (Nat × Nat)) (acc : List (Nat × Nat)) {x : Nat × Nat}
    (hx : x ∈ L.foldl (fun acc p => insertIfAbsent p acc) acc) :
    x ∈ acc ∨ x ∈ L := by
  induction L generalizing acc with
  | nil => exact Or.inl hx
  | cons a L ih =>
      rcases ih _ hx with h | h
      · dsimp only at h
        rcases mem_insertIfAbsent.1 h with h' | rfl
        · exact Or.inl h'
        · exact Or.inr (List.mem_cons_self _ _)
      · exact Or.inr (List.mem_cons_of_mem _ h)

theorem frontierCandCells_spec {g : HexGame} (hn : 0 < g.size) {x : Nat × Nat}
    (hx : x ∈ frontierCandCells g) :
    x.1 < g.size ∧ x.2 < g.size ∧ g.board x.1 x.2 = EMPTY := by
  unfold frontierCandCells at hx
  split_ifs at hx with hs
  · rcases frontierOuter_mem g _ _ hx with h | ⟨rc, _, hnb, hb⟩
    · cases h
    · obtain ⟨h1, h2, _⟩ := mem_neighborsN.1 hnb
      exact ⟨h1, h2, hb⟩
  · rcases centerFold_mem _ _ hx with h | h
    · rcases frontierOuter_mem g _ _ h with h' | ⟨rc, _, hnb, hb⟩
      · cases h'
      · obtain ⟨h1, h2, _⟩ := mem_neighborsN.1 hnb
        exact ⟨h1, h2, hb⟩
    · rw [Bool.not_eq_true] at hs
      rcases List.mem_cons.1 h with rfl | h'
      · have hmid : g.size / 2 < g.size := Nat.div_lt_self hn (by omega)
        exact ⟨hmid, hmid, anyStone_false hs _ _ hmid hmid⟩
      · obtain ⟨h1, h2, _⟩ := mem_neighborsN.1 h'
        exact ⟨h1, h2, anyStone_false hs _ _ h1 h2⟩

theorem frontier_moves_spec {g : HexGame} (hn : 0 < g.size) {mc : Nat} {m : Move}
    (hm : m ∈ frontier_moves g mc) :
    g.in_bounds m.r m.c ∧ g.board m.r.toNat m.c.toNat = EMPTY := by
  unfold frontier_moves at hm
  split_ifs at hm with hlen
  · obtain ⟨r, c, hr, hc, hb, rfl⟩ := mem_emptyCellsList.1 hm
    refine ⟨⟨?_, ?_, ?_, ?_⟩, ?_⟩ <;> dsimp only [HexGame.in_bounds]
    · omega
    · omega
    · omega
    · omega
    · simpa using hb
  · have hm2 := List.take_subset _ _ hm
    rw [List.mem_mergeSort] at hm2
    obtain ⟨p, hp, rfl⟩ := List.mem_map.1 hm2
    obtain ⟨h1, h2, h3⟩ := frontierCandCells_spec hn hp
    refine ⟨⟨?_, ?_, ?_, ?_⟩, ?_⟩ <;> dsimp only [HexGame.in_bounds]
    · omega
    · omega
    · omega
    · omega
    · simpa using h3

theorem frontier_moves_ne_nil {g : HexGame} {mc : Nat} (hmc : 0 < mc)
    (hcell : ∃ r c : Nat, r < g.size ∧ c < g.size ∧ g.board r c = EMPTY) :
    frontier_moves g mc ≠ [] := by
  obtain ⟨r, c, hr, hc, hb⟩ := hcell
  unfold frontier_moves
  split_ifs with hlen
  · intro h
    have : (⟨(r : Int), (c : Int)⟩ : Move) ∈ emptyCellsList g :=
      mem_emptyCellsList.2 ⟨r, c, hr, hc, hb, rfl⟩
    rw [show empty_cells g = emptyCellsList g from rfl] at h
    rw [h] at this
    cases this
  · intro h
    have hlen2 := congrArg List.length h
    rw [List.length_take, List.length_mergeSort] at hlen2
    simp only [List.length_nil] at hlen2
    omega

theorem softmaxGo_mem :
    ∀ (l : List (Move × Frac)) (acc r : Frac) (m : Move),
    softmaxGo l acc r = some m → m ∈ l.map Prod.fst
  | [], _, _, _, h => by cases h
  | (a, e) :: rest, acc, r, m, h => by
      unfold softmaxGo at h
      split_ifs at h with hc
      · rw [Option.some_inj] at h
        subst h
        exact List.mem_cons_self _ _
      · exact List.mem_cons_of_mem _ (softmaxGo_mem rest _ r m h)

theorem getLast?_mem' {α : Type} {l : List α} {a : α} (h : l.getLast? = some a) :
    a ∈ l := by
  induction l with
  | nil => cases h
  | cons x xs ih =>
      rw [List.getLast?_cons] at h
      cases hx : xs.getLast? with
      | none =>
          rw [hx] at h
          cases xs with
          | nil =>
              simp only [Option.some_inj] at h ⊢
              simp [← h]
          | cons y ys => rw [List.getLast?_cons] at hx; cases ys <;> simp_all
      | some b =>
          rw [hx] at h
          simp only [Option.or_some, Option.some_inj] at h
          subst h
          exact List.mem_cons_of_mem _ (ih hx)

theorem play_succeeds (g : HexGame) (mv : Move) (h1 : g.winner = EMPTY)
    (h2 : g.in_bounds mv.r mv.c) (h3 : g.board mv.r.toNat mv.c.toNat = EMPTY) :
    (g.play mv).1 = true := by
  rw [play_success g mv h1 h2 h3]
  split_ifs <;> rfl

/-- C9: from a non-terminal state with an empty cell (and a positive
candidate cap), `rollout_policy` returns a move without raising, the
move is an in-bounds empty cell that `play` accepts, and the candidate
list is non-empty (so the empty-list branches are unreachable). -/
theorem claim_C9_rollout_safety (g : HexGame) (fexp : Frac → Frac) (rnd : Frac)
    (max_candidates : Nat) (hmc : 0 < max_candidates) (hw : g.winner = EMPTY)
    (hcell : ∃ r c : Nat, r < g.size ∧ c < g.size ∧ g.board r c = EMPTY) :
    frontier_moves g max_candidates ≠ [] ∧
    ∃ m, rollout_policy fexp rnd g max_candidates = some m ∧
      g.in_bounds m.r m.c ∧ g.board m.r.toNat m.c.toNat = EMPTY ∧
      (g.play m).1 = true := by
  have hn : 0 < g.size := by
    obtain ⟨r, c, hr, _, _⟩ := hcell
    omega
  have hne := frontier_moves_ne_nil hmc hcell
  refine ⟨hne, ?_⟩
  have hmem : ∀ m, m ∈ frontier_moves g max_candidates →
      g.in_bounds m.r m.c ∧ g.board m.r.toNat m.c.toNat = EMPTY ∧ (g.play m).1 = true := by
    intro m hm
    obtain ⟨hb, he⟩ := frontier_moves_spec hn hm
    exact ⟨hb, he, play_succeeds g m hw hb he⟩
  unfold rollout_policy
  split
  · next hmx =>
      exfalso
      cases hfm : frontier_moves g max_candidates with
      | nil => exact hne hfm
      | cons a l => rw [hfm] at hmx; unfold listMax at hmx; simp at hmx
  · next mx hmx =>
      split
      · next m hsg =>
          have hmm := softmaxGo_mem _ _ _ _ hsg
          rw [List.map_fst_zip] at hmm
          · obtain ⟨hb, he, hp⟩ := hmem m hmm
            exact ⟨m, rfl, hb, he, hp⟩
          · rw [List.length_map, List.length_map]
      · next hsg =>
          refine ⟨(frontier_moves g max_candidates).getLast hne, ?_, ?_, ?_, ?_⟩
          · exact List.getLast?_eq_getLast _ hne
          · exact (hmem _ (List.getLast_mem hne)).1
          · exact (hmem _ (List.getLast_mem hne)).2.1
          · exact (hmem _ (List.getLast_mem hne)).2.2

/-- Witness for C9 at a concrete non-terminal state with the default
rollout cap. -/
theorem claim_C9_witness :
    (0 < 12 ∧ gameMidExample.winner = EMPTY ∧
      (∃ r c : Nat, r < gameMidExample.size ∧ c < gameMidExample.size ∧
        gameMidExample.board r c = EMPTY)) ∧
    (frontier_moves gameMidExample 12 ≠ [] ∧
      ∃ m, rollout_policy (fun _ => (1 : Frac)) 0 gameMidExample 12 = some m ∧
        gameMidExample.in_bounds m.r m.c ∧
        gameMidExample.board m.r.toNat m.c.toNat = EMPTY ∧
        (gameMidExample.play m).1 = true) :=
  ⟨⟨by decide, by decide, ⟨0, 1, by decide, by decide, by decide⟩⟩,
   claim_C9_rollout_safety gameMidExample (fun _ => 1) 0 12 (by decide) (by decide)
     ⟨0, 1, by decide, by decide, by decide⟩⟩

/-! ### Clone independence (heap model) -/

theorem getD_map_range {b n r : Nat} (hr : r < n) :
    ((List.range n).map (fun i => b + i)).getD r 0 = b + r := by
  rw [List.getD_eq_getElem?_getD, List.getElem?_map, List.getElem?_range hr]
  rfl

theorem playH_rows_size (st : Store) (g : HexGameH) (mv : Move) :
    (playH st g mv).2.2.rows = g.rows ∧ (playH st g mv).2.2.size = g.size := by
  unfold playH
  split_ifs <;> exact ⟨rfl, rfl⟩

theorem playH_prefix (N : Nat) (st : Store) (g : HexGameH) (mv : Move)
    (hrows : ∀ r : Nat, r < g.size → N ≤ g.rows.getD r 0) :
    ∀ i, i < N → (playH st g mv).2.1.getD i [] = st.getD i [] := by
  intro i hi
  unfold playH
  split_ifs with h1 h2 h3 h4
  any_goals rfl
  all_goals
    show (writeH st g mv).getD i [] = st.getD i []
  all_goals
    have hb : mv.r.toNat < g.size := by omega
  all_goals
    have hN := hrows mv.r.toNat hb
  all_goals
    unfold writeH
    rw [List.getD_eq_getElem?_getD, List.getElem?_set_ne (by omega),
      ← List.getD_eq_getElem?_getD]

theorem playAllH_invariant (N : Nat) :
    ∀ (ms : List Move) (s : Store) (h : HexGameH),
    (∀ r : Nat, r < h.size → N ≤ h.rows.getD r 0) →
    (playAllH (s, h) ms).2.rows = h.rows ∧ (playAllH (s, h) ms).2.size = h.size ∧
      ∀ i, i < N → (playAllH (s, h) ms).1.getD i [] = s.getD i []
  | [], s, h, _ => ⟨rfl, rfl, fun _ _ => rfl⟩
  | mv :: ms, s, h, hrows => by
      have hstep := playH_rows_size s h mv
      have hpre := playH_prefix N s h mv hrows
      have hrec := playAllH_invariant N ms (playH s h mv).2.1 (playH s h mv).2.2
        (fun r hr => by
          rw [hstep.1]
          exact hrows r (by rw [← hstep.2]; exact hr))
      have hfold : playAllH (s, h) (mv :: ms) = playAllH (playH s h mv).2 ms := rfl
      refine ⟨?_, ?_, ?_⟩
      · rw [hfold]
        rw [show (playH s h mv).2 = ((playH s h mv).2.1, (playH s h mv).2.2) from rfl] at *
        rw [hrec.1, hstep.1]
      · rw [hfold]
        rw [show (playH s h mv).2 = ((playH s h mv).2.1, (playH s h mv).2.2) from rfl] at *
        rw [hrec.2.1, hstep.2]
      · intro i hi
        rw [hfold]
        rw [show (playH s h mv).2 = ((playH s h mv).2.1, (playH s h mv).2.2) from rfl] at *
        rw [hrec.2.2 i hi, hpre i hi]

/-- C10: `clone` builds an independent deep copy: its scalar fields and
board content initially equal the source's, and any sequence of
subsequent `play` mutations of the clone leaves the source's store rows,
and hence every observable field of the source, unchanged. -/
theorem claim_C10_clone_independence (st : Store) (g : HexGameH)
    (hval : ∀ i ∈ g.rows, i < st.length) (hlen : g.rows.length = g.size) :
    ((cloneH st g).2.size = g.size ∧ (cloneH st g).2.current = g.current ∧
      (cloneH st g).2.winner = g.winner ∧ (cloneH st g).2.last_move = g.last_move ∧
      (cloneH st g).2.moves_played = g.moves_played ∧
      (∀ r c : Nat, r < g.size →
        readCell (cloneH st g).1 (cloneH st g).2 r c = readCell st g r c))
    ∧ (∀ ms : List Move,
        (∀ i, i < st.length →
          (playAllH (cloneH st g) ms).1.getD i [] = st.getD i []) ∧
        (∀ r c : Nat, r < g.size →
          readCell (playAllH (cloneH st g) ms).1 g r c = readCell st g r c)) := by
  have hbase : st.length ≤ (initH st g.size).1.length := by
    unfold initH
    rw [List.length_append]
    omega
  have hcloneRow : ∀ r : Nat, r < g.size →
      (cloneH st g).2.rows.getD r 0 = (initH st g.size).1.length + r := by
    intro r hr
    exact getD_map_range hr
  have hreadClone : ∀ r c : Nat, r < g.size →
      readCell (cloneH st g).1 (cloneH st g).2 r c = readCell st g r c := by
    intro r c hr
    have h1 : ((cloneH st g).1).getD ((initH st g.size).1.length + r) [] =
        (g.rows.map (fun i => st.getD i [])).getD r [] := by
      show ((initH st g.size).1 ++ g.rows.map (fun i => st.getD i [])).getD _ [] = _
      rw [List.getD_eq_getElem?_getD, List.getElem?_append_right (by omega),
        List.getD_eq_getElem?_getD]
      congr 2
      omega
    have hr' : r < g.rows.length := by omega
    have hrow : (g.rows.map (fun i => st.getD i [])).getD r [] =
        st.getD (g.rows.getD r 0) [] := by
      rw [List.getD_eq_getElem?_getD, List.getElem?_map, List.getElem?_eq_getElem hr']
      rw [List.getD_eq_getElem?_getD g.rows, List.getElem?_eq_getElem hr']
      rfl
    unfold readCell
    rw [hcloneRow r hr, h1, hrow]
  refine ⟨⟨rfl, rfl, rfl, rfl, rfl, hreadClone⟩, ?_⟩
  intro ms
  have hinv := playAllH_invariant st.length ms (cloneH st g).1 (cloneH st g).2
    (fun r hr => by
      rw [hcloneRow r hr]
      omega)
  have hkeep : ∀ i, i < st.length →
      (playAllH (cloneH st g) ms).1.getD i [] = st.getD i [] := by
    intro i hi
    rw [show (cloneH st g) = ((cloneH st g).1, (cloneH st g).2) from rfl]
    rw [hinv.2.2 i hi]
    show ((initH st g.size).1 ++ g.rows.map (fun i => st.getD i [])).getD i [] = _
    rw [List.getD_eq_getElem?_getD, List.getElem?_append_left (by
      unfold initH
      rw [List.length_append]
      omega)]
    show (st ++ List.replicate g.size (List.replicate g.size EMPTY))[i]?.getD [] = _
    rw [List.getElem?_append_left hi, List.getD_eq_getElem?_getD]
  refine ⟨hkeep, ?_⟩
  intro r c hr
  unfold readCell
  have hidx : g.rows.getD r 0 < st.length := by
    apply hval
    have hr' : r < g.rows.length := by omega
    rw [List.getD_eq_getElem?_getD, List.getElem?_eq_getElem hr']
    exact List.getElem_mem hr'
  rw [hkeep _ hidx]

/-- Witness for C10 at a concrete one-move heap state. -/
theorem claim_C10_witness :
    ((∀ i ∈ heapExample.2.rows, i < heapExample.1.length) ∧
      heapExample.2.rows.length = heapExample.2.size) ∧
    (((cloneH heapExample.1 heapExample.2).2.size = heapExample.2.size ∧
      (cloneH heapExample.1 heapExample.2).2.current = heapExample.2.current ∧
      (cloneH heapExample.1 heapExample.2).2.winner = heapExample.2.winner ∧
      (cloneH heapExample.1 heapExample.2).2.last_move = heapExample.2.last_move ∧
      (cloneH heapExample.1 heapExample.2).2.moves_played = heapExample.2.moves_played ∧
      (∀ r c : Nat, r < heapExample.2.size →
        readCell (cloneH heapExample.1 heapExample.2).1
            (cloneH heapExample.1 heapExample.2).2 r c =
          readCell heapExample.1 heapExample.2 r c))
    ∧ (∀ ms : List Move,
        (∀ i, i < heapExample.1.length →
          (playAllH (cloneH heapExample.1 heapExample.2) ms).1.getD i [] =
            heapExample.1.getD i []) ∧
        (∀ r c : Nat, r < heapExample.2.size →
          readCell (playAllH (cloneH heapExample.1 heapExample.2) ms).1 heapExample.2 r c =
            readCell heapExample.1 heapExample.2 r c))) :=
  ⟨⟨by decide, by decide⟩,
    claim_C10_clone_independence heapExample.1 heapExample.2 (by decide) (by decide)⟩

/-! ### MCTS engine: node-surgery lemmas -/

theorem Move.eta (m : Move) : (⟨m.r, m.c⟩ : Move) = m := rfl

theorem bump_move (nd : Node) (r : Frac) : (nd.bump r).move = nd.move := by
  cases nd; rfl

theorem bump_player (nd : Node) (r : Frac) :
    (nd.bump r).player_to_move = nd.player_to_move := by
  cases nd; rfl

theorem bump_children (nd : Node) (r : Frac) : (nd.bump r).children = nd.children := by
  cases nd; rfl

theorem withUntried_move (nd : Node) (u : List Move) : (nd.withUntried u).move = nd.move := by
  cases nd; rfl

theorem withUntried_player (nd : Node) (u : List Move) :
    (nd.withUntried u).player_to_move = nd.player_to_move := by
  cases nd; rfl

theorem withUntried_children (nd : Node) (u : List Move) :
    (nd.withUntried u).children = nd.children := by
  cases nd; rfl

theorem replaceChild_move (nd : Node) (k : Int × Int) (c : Node) :
    (nd.replaceChild k c).move = nd.move := by
  cases nd; rfl

theorem replaceChild_player (nd : Node) (k : Int × Int) (c : Node) :
    (nd.replaceChild k c).player_to_move = nd.player_to_move := by
  cases nd; rfl

theorem replaceChild_children (nd : Node) (k : Int × Int) (c : Node) :
    (nd.replaceChild k c).children =
      nd.children.map (fun kv => if kv.1 = k then (kv.1, c) else kv) := by
  cases nd; rfl

theorem addChild_move (nd : Node) (k : Int × Int) (c : Node) :
    (nd.addChild k c).move = nd.move := by
  cases nd with
  | mk m p u ch v w =>
      rw [Node.addChild]
      split_ifs <;> rfl

theorem addChild_player (nd : Node) (k : Int × Int) (c : Node) :
    (nd.addChild k c).player_to_move = nd.player_to_move := by
  cases nd with
  | mk m p u ch v w =>
      rw [Node.addChild]
      split_ifs <;> rfl

theorem addChild_children (nd : Node) (k : Int × Int) (c : Node) :
    (nd.addChild k c).children =
      (if nd.children.any (fun kv => kv.1 = k) then
        nd.children.map (fun kv => if kv.1 = k then (kv.1, c) else kv)
      else nd.children ++ [(k, c)]) := by
  cases nd with
  | mk m p u ch v w =>
      rw [Node.addChild]
      simp only [Node.children]
      split_ifs <;> rfl

theorem uct_fold_mem (flog fsqrt : Frac → Frac) (c : Frac) (pv : Nat) :
    ∀ (l : List ((Int × Int) × Node)) (acc : Option Node × Frac) (ch : Node),
    (l.foldl
      (fun (acc : Option Node × Frac) kv =>
        if Frac.blt acc.2
            (if kv.2.visits = 0 then (1e9 : Frac)
             else kv.2.wins / (kv.2.visits : Frac)
               + c * fsqrt (flog ((pv : Frac) + 1) / (kv.2.visits : Frac))) then
          (some kv.2,
            if kv.2.visits = 0 then (1e9 : Frac)
            else kv.2.wins / (kv.2.visits : Frac)
              + c * fsqrt (flog ((pv : Frac) + 1) / (kv.2.visits : Frac)))
        else acc) acc).1 = some ch →
    acc.1 = some ch ∨ ∃ kv ∈ l, kv.2 = ch
  | [], acc, ch, h => Or.inl h
  | kv :: l, acc, ch, h => by
      rcases uct_fold_mem flog fsqrt c pv l _ ch h with h' | h'
      · dsimp only at h'
        by_cases hb : Frac.blt acc.2
            (if kv.2.visits = 0 then (1e9 : Frac)
             else kv.2.wins / (kv.2.visits : Frac)
               + c * fsqrt (flog ((pv : Frac) + 1) / (kv.2.visits : Frac))) = true
        · rw [if_pos hb] at h'
          simp only [Option.some_inj] at h'
          exact Or.inr ⟨kv, List.mem_cons_self _ _, h'⟩
        · rw [if_neg hb] at h'
          exact Or.inl h'
      · obtain ⟨kv', hkv', rfl⟩ := h'
        exact Or.inr ⟨kv', List.mem_cons_of_mem _ hkv', rfl⟩

theorem uct_select_child_mem {flog fsqrt : Frac → Frac} {c : Frac} {nd : Node} {ch : Node}
    (h : uct_select_child flog fsqrt c nd = some ch) :
    ∃ kv ∈ nd.children, kv.2 = ch := by
  unfold uct_select_child at h
  rcases uct_fold_mem flog fsqrt c nd.visits nd.children (none, -(1e9 : Frac)) ch h with h' | h'
  · cases h'
  · exact h'

theorem bestFold_spec :
    ∀ (rest : List ((Int × Int) × Node)) (b : Node),
    b.visits ≤ (rest.foldl (fun b kv' => if kv'.2.visits > b.visits then kv'.2 else b) b).visits
    ∧ (∀ kv ∈ rest, kv.2.visits ≤
        (rest.foldl (fun b kv' => if kv'.2.visits > b.visits then kv'.2 else b) b).visits)
    ∧ ((rest.foldl (fun b kv' => if kv'.2.visits > b.visits then kv'.2 else b) b) = b
      ∨ ∃ i, ∃ hi : i < rest.length,
          (rest.get ⟨i, hi⟩).2 =
            (rest.foldl (fun b kv' => if kv'.2.visits > b.visits then kv'.2 else b) b)
          ∧ b.visits <
            (rest.foldl (fun b kv' => if kv'.2.visits > b.visits then kv'.2 else b) b).visits
          ∧ ∀ j, ∀ hj : j < rest.length, j < i →
              (rest.get ⟨j, hj⟩).2.visits <
                (rest.foldl (fun b kv' => if kv'.2.visits > b.visits then kv'.2 else b) b).visits)
  | [], b => by
      refine ⟨le_refl _, ?_, Or.inl rfl⟩
      intro kv h
      cases h
  | kv :: rest, b => by
      have hstep : b.visits ≤ (if kv.2.visits > b.visits then kv.2 else b).visits ∧
          kv.2.visits ≤ (if kv.2.visits > b.visits then kv.2 else b).visits := by
        split_ifs with hgt
        · omega
        · omega
      obtain ⟨ih1, ih2, ih3⟩ := bestFold_spec rest (if kv.2.visits > b.visits then kv.2 else b)
      rw [List.foldl_cons]
      refine ⟨le_trans hstep.1 ih1, ?_, ?_⟩
      · intro kv0 hkv0
        rcases List.mem_cons.1 hkv0 with rfl | h'
        · exact le_trans hstep.2 ih1
        · exact ih2 kv0 h'
      · rcases ih3 with heq | ⟨i, hi, hieq, hilt, hprior⟩
        · by_cases hgt : kv.2.visits > b.visits
          · refine Or.inr ⟨0, by simp, ?_, ?_, ?_⟩
            · rw [heq, if_pos hgt]
              rfl
            · rw [heq, if_pos hgt]
              exact hgt
            · intro j hj hj0
              omega
          · refine Or.inl ?_
            rw [heq, if_neg hgt]
        · refine Or.inr ⟨i + 1, by simpa using hi, ?_, ?_, ?_⟩
          · exact hieq
          · exact lt_of_le_of_lt hstep.1 hilt
          · intro j hj hj'
            cases j with
            | zero => exact lt_of_le_of_lt hstep.2 hilt
            | succ j0 => exact hprior j0 (by omega) (by omega)

theorem bestChild_spec {l : List ((Int × Int) × Node)} {bc : Node}
    (h : bestChild l = some bc) :
    ∃ i, ∃ hi : i < l.length, (l.get ⟨i, hi⟩).2 = bc ∧
      (∀ kv ∈ l, kv.2.visits ≤ bc.visits) ∧
      ∀ j, ∀ hj : j < l.length, j < i → (l.get ⟨j, hj⟩).2.visits < bc.visits := by
  cases l with
  | nil => cases h
  | cons kv rest =>
      unfold bestChild at h
      rw [Option.some_inj] at h
      obtain ⟨f1, f2, f3⟩ := bestFold_spec rest kv.2
      rcases f3 with heq | ⟨i, hi, hieq, hilt, hprior⟩
      · refine ⟨0, by simp, ?_, ?_, ?_⟩
        · rw [← h, heq]
          rfl
        · intro kv0 hkv0
          rcases List.mem_cons.1 hkv0 with rfl | h'
          · rw [← h]
            exact f1
          · rw [← h]
            exact f2 kv0 h'
        · intro j hj hj0
          omega
      · refine ⟨i + 1, by simpa using hi, ?_, ?_, ?_⟩
        · rw [← h]
          exact hieq
        · intro kv0 hkv0
          rcases List.mem_cons.1 hkv0 with rfl | h'
          · rw [← h]
            exact le_of_lt hilt
          · rw [← h]
            exact f2 kv0 h'
        · intro j hj hj'
          cases j with
          | zero =>
              rw [← h]
              exact hilt
          | succ j0 =>
              rw [← h]
              exact hprior j0 (by omega) (by omega)

theorem bestChild_mem {l : List ((Int × Int) × Node)} {bc : Node}
    (h : bestChild l = some bc) : ∃ kv ∈ l, kv.2 = bc := by
  obtain ⟨i, hi, hieq, _, _⟩ := bestChild_spec h
  exact ⟨l.get ⟨i, hi⟩, List.get_mem l i hi, hieq⟩

/-! ### MCTS engine: one search iteration preserves the root's identity
and the consistency of its child table with the live state -/

theorem RootChildrenOK_bump {g : HexGame} {nd : Node} {r : Frac}
    (h : RootChildrenOK g nd) : RootChildrenOK g (nd.bump r) := by
  intro kv hkv
  rw [bump_children] at hkv
  exact h kv hkv

theorem RootChildrenOK_withUntried {g : HexGame} {nd : Node} {u : List Move}
    (h : RootChildrenOK g nd) : RootChildrenOK g (nd.withUntried u) := by
  intro kv hkv
  rw [withUntried_children] at hkv
  exact h kv hkv

theorem RootChildrenOK_replace {g : HexGame} {nd : Node} {mv : Move} {ch ch2 : Node}
    (hsel : ∃ kv ∈ nd.children, kv.2 = ch) (hchmv : ch.move = some mv)
    (hm2 : ch2.move = ch.move) (hp2 : ch2.player_to_move = ch.player_to_move)
    (hOK : RootChildrenOK g nd) :
    RootChildrenOK g (nd.replaceChild (mv.r, mv.c) ch2) := by
  intro kv hkv
  rw [replaceChild_children] at hkv
  obtain ⟨kv0, hkv0, hkveq⟩ := List.mem_map.1 hkv
  by_cases hkey : kv0.1 = (mv.r, mv.c)
  · rw [if_pos hkey] at hkveq
    obtain ⟨kvsel, hkvsel, hkvsel2⟩ := hsel
    obtain ⟨hselmv, hselpl⟩ := hOK kvsel hkvsel
    rw [hkvsel2] at hselmv hselpl
    have hmveq : mv = ⟨kvsel.1.1, kvsel.1.2⟩ := by
      rw [hchmv] at hselmv
      exact Option.some_inj.1 hselmv
    have hkeysel : kv0.1 = kvsel.1 := by
      rw [hkey, hmveq]
    rw [← hkveq]
    refine ⟨?_, ?_⟩
    · show ch2.move = some (⟨kv0.1.1, kv0.1.2⟩ : Move)
      rw [hm2, hchmv, hmveq, hkeysel]
    · show ch2.player_to_move = ((g.play ⟨kv0.1.1, kv0.1.2⟩).2).current
      rw [hp2, hselpl, hkeysel]
  · rw [if_neg hkey] at hkveq
    rw [← hkveq]
    exact hOK kv0 hkv0

theorem RootChildrenOK_add {g : HexGame} {nd : Node} {mv : Move} {child : Node}
    (hc1 : child.move = some mv)
    (hc2 : child.player_to_move = ((g.play mv).2).current)
    (hOK : RootChildrenOK g nd) :
    RootChildrenOK g (nd.addChild (mv.r, mv.c) child) := by
  intro kv hkv
  rw [addChild_children] at hkv
  split_ifs at hkv with hany
  · obtain ⟨kv0, hkv0, hkveq⟩ := List.mem_map.1 hkv
    by_cases hkey : kv0.1 = (mv.r, mv.c)
    · rw [if_pos hkey] at hkveq
      rw [← hkveq]
      have hmveta : (⟨kv0.1.1, kv0.1.2⟩ : Move) = mv := by
        rw [hkey]
      refine ⟨?_, ?_⟩
      · show child.move = some (⟨kv0.1.1, kv0.1.2⟩ : Move)
        rw [hc1, hmveta]
      · show child.player_to_move = ((g.play ⟨kv0.1.1, kv0.1.2⟩).2).current
        rw [hc2, hmveta]
    · rw [if_neg hkey] at hkveq
      rw [← hkveq]
      exact hOK kv0 hkv0
  · rcases List.mem_append.1 hkv with h2 | h2
    · exact hOK kv h2
    · rw [List.mem_singleton.1 h2]
      have hmveta : (⟨mv.r, mv.c⟩ : Move) = mv := rfl
      exact ⟨by rw [hc1], by rw [hc2]⟩

theorem descend_props (orc : Oracle) (c : Frac) (rc ec rp : Nat) (g : HexGame) :
    ∀ (fuel : Nat) (nd : Node) (st : HexGame) (t : Nat) (res : Node × Nat × Option Frac),
    descend orc c rc ec rp fuel nd st t = some res →
    res.1.move = nd.move ∧ res.1.player_to_move = nd.player_to_move ∧
      (st = g → RootChildrenOK g nd → RootChildrenOK g res.1) := by
  intro fuel
  induction fuel with
  | zero =>
      intro nd st t res h
      cases h
  | succ fuel ih =>
      intro nd st t res h
      rw [descend] at h
      by_cases hsel : st.winner = EMPTY ∧ nd.untried = [] ∧ nd.children.isEmpty = false
      case pos =>
        rw [if_pos hsel] at h
        -- selection branch
        split at h
        · cases h
        · next ch huct =>
            split at h
            · cases h
            · next mv hmv =>
                split at h
                · cases h
                · next ch2 t2 r0 hrec =>
                    obtain ⟨hm2, hp2, _⟩ := ih ch (st.play mv).2 t (ch2, t2, some r0) hrec
                    have hsel2 := uct_select_child_mem huct
                    simp only [Option.some_inj] at h
                    rw [← h]
                    refine ⟨?_, ?_, ?_⟩
                    · rw [bump_move, replaceChild_move]
                    · rw [bump_player, replaceChild_player]
                    · intro hst hOK
                      subst hst
                      exact RootChildrenOK_bump
                        (RootChildrenOK_replace hsel2 hmv hm2 hp2 hOK)
                · next ch2 t2 hrec =>
                    obtain ⟨hm2, hp2, _⟩ := ih ch (st.play mv).2 t (ch2, t2, none) hrec
                    have hsel2 := uct_select_child_mem huct
                    simp only [Option.some_inj] at h
                    rw [← h]
                    refine ⟨?_, ?_, ?_⟩
                    · rw [replaceChild_move]
                    · rw [replaceChild_player]
                    · intro hst hOK
                      subst hst
                      exact RootChildrenOK_replace hsel2 hmv hm2 hp2 hOK
      case neg =>
        rw [if_neg hsel] at h
        -- expansion / simulation branches
        cases nd with
        | mk ndm ndp ndu ndch ndv ndw =>
            simp only [Node.untried] at h
            cases ndu with
            | nil =>
                simp only at h
                cases hsim : simLoop orc rc (st.size * st.size + 1) st t with
                | none => rw [hsim] at h; cases h
                | some p =>
                    obtain ⟨endSt, t2⟩ := p
                    rw [hsim] at h
                    simp only [Option.some_inj] at h
                    rw [← h]
                    refine ⟨?_, ?_, ?_⟩
                    · rw [bump_move]
                    · rw [bump_player]
                    · intro hst hOK
                      exact RootChildrenOK_bump hOK
            | cons mv rest =>
                simp only at h
                split_ifs at h with hw hok
                · cases hsim : simLoop orc rc
                      ((st.play mv).2.size * (st.play mv).2.size + 1) (st.play mv).2 t with
                  | none => rw [hsim] at h; cases h
                  | some p =>
                      obtain ⟨endSt, t2⟩ := p
                      rw [hsim] at h
                      simp only [Option.some_inj] at h
                      rw [← h]
                      refine ⟨?_, ?_, ?_⟩
                      · rw [bump_move, addChild_move, withUntried_move]
                      · rw [bump_player, addChild_player, withUntried_player]
                      · intro hst hOK
                        subst hst
                        exact RootChildrenOK_bump (RootChildrenOK_add rfl rfl
                          (RootChildrenOK_withUntried hOK))
                · simp only [Option.some_inj] at h
                  rw [← h]
                  refine ⟨?_, ?_, ?_⟩
                  · rw [withUntried_move]
                  · rw [withUntried_player]
                  · intro hst hOK
                    exact RootChildrenOK_withUntried hOK
                · cases hsim : simLoop orc rc (st.size * st.size + 1) st t with
                  | none => rw [hsim] at h; cases h
                  | some p =>
                      obtain ⟨endSt, t2⟩ := p
                      rw [hsim] at h
                      simp only [Option.some_inj] at h
                      rw [← h]
                      refine ⟨?_, ?_, ?_⟩
                      · rw [bump_move]
                      · rw [bump_player]
                      · intro hst hOK
                        exact RootChildrenOK_bump hOK

theorem searchLoop_props (orc : Oracle) (c : Frac) (rc ec rp : Nat) (g : HexGame) :
    ∀ (fuel k : Nat) (nd : Node) (t : Nat) (res : Node × Nat),
    searchLoop orc c rc ec rp g fuel k nd t = some res →
    res.1.move = nd.move ∧ res.1.player_to_move = nd.player_to_move ∧
      (RootChildrenOK g nd → RootChildrenOK g res.1) := by
  intro fuel
  induction fuel with
  | zero =>
      intro k nd t res h
      rw [searchLoop] at h
      rw [Option.some_inj] at h
      rw [← h]
      exact ⟨rfl, rfl, fun hOK => hOK⟩
  | succ fuel ih =>
      intro k nd t res h
      rw [searchLoop] at h
      split_ifs at h with htime
      · cases hdes : descend orc c rc ec rp (nd.visits + 2) nd g.clone t with
        | none => rw [hdes] at h; cases h
        | some p =>
            obtain ⟨nd2, t2, ctr⟩ := p
            rw [hdes] at h
            simp only at h
            obtain ⟨d1, d2, d3⟩ := descend_props orc c rc ec rp g _ nd g.clone t
              (nd2, t2, ctr) hdes
            obtain ⟨s1, s2, s3⟩ := ih (k + 1) nd2 t2 res h
            exact ⟨by rw [s1]; exact d1, by rw [s2]; exact d2,
              fun hOK => s3 (d3 rfl hOK)⟩
      · rw [Option.some_inj] at h
        rw [← h]
        exact ⟨rfl, rfl, fun hOK => hOK⟩

theorem prePlayer_rebuild (bot : MCTSBot) (g : HexGame)
    (h : bot.rebuildNeeded g = true) : bot.prePlayer g = some g.current := by
  unfold MCTSBot.prePlayer
  rw [if_pos h]

theorem setupRoot_rebuild (bot : MCTSBot) (g : HexGame)
    (h : bot.rebuildNeeded g = true) :
    (bot.setupRoot g).children = [] ∧ (bot.setupRoot g).player_to_move = g.current := by
  have hpre : bot.preRoot g = bot.newRootNode g := by
    unfold MCTSBot.preRoot
    rw [if_pos h]
  unfold MCTSBot.setupRoot
  rw [hpre]
  split_ifs with hcond
  · exact ⟨by rw [withUntried_children]; rfl, by rw [withUntried_player]; rfl⟩
  · exact ⟨rfl, rfl⟩

theorem RootChildrenOK_of_no_children {g : HexGame} {nd : Node}
    (h : nd.children = []) : RootChildrenOK g nd := by
  intro kv hkv
  rw [h] at hkv
  cases hkv

/-- C5: re-rooting after a played move: a move matching a retained child
key makes that child the new root, a move that matches no child discards
the whole retained tree (root and root-perspective player both reset to
none); and when `choose` entered with a rebuild (no retained root, or a
retained root whose expected mover disagrees with the live state), the
root it retains on return expects the mover of the position after the
returned move — except in the starved case where no child was ever
expanded, in which the root is kept un-re-rooted, childless, still
expecting the pre-move mover. -/
theorem claim_C5_tree_reuse :
    (∀ (bot : MCTSBot) (rt : Node) (mv : Move) (nxt : Node), bot.root = some rt →
        rt.lookupChild (mv.r, mv.c) = some nxt →
        bot.applyMoveToTree mv = { bot with root := some nxt })
    ∧ (∀ (bot : MCTSBot) (rt : Node) (mv : Move), bot.root = some rt →
        rt.lookupChild (mv.r, mv.c) = none →
        bot.applyMoveToTree mv = { bot with root := none, root_player := none })
    ∧ (∀ (orc : Oracle) (bot : MCTSBot) (g : HexGame) (m : Move) (bot2 : MCTSBot),
        bot.rebuildNeeded g = true →
        MCTSBot.choose orc bot g = some (m, bot2) →
        ∃ rt2, bot2.root = some rt2 ∧
          (rt2.player_to_move = ((g.play m).2).current ∨
            (rt2.children = [] ∧ rt2.player_to_move = g.current))) := by
  refine ⟨?_, ?_, ?_⟩
  · intro bot rt mv nxt hroot hlook
    unfold MCTSBot.applyMoveToTree
    rw [hroot]
    simp only
    rw [hlook]
  · intro bot rt mv hroot hlook
    unfold MCTSBot.applyMoveToTree
    rw [hroot]
    simp only
    rw [hlook]
  · intro orc bot g m bot2 hreb hch
    unfold MCTSBot.choose at hch
    cases hsl : searchLoop orc bot.uct_c bot.rollout_candidates bot.expand_candidates
        ((bot.prePlayer g).getD EMPTY) g bot.playout_limit 0 (bot.setupRoot g) 0 with
    | none => rw [hsl] at hch; cases hch
    | some p =>
        obtain ⟨rtF, tF⟩ := p
        rw [hsl] at hch
        simp only at hch
        obtain ⟨hsu1, hsu2⟩ := setupRoot_rebuild bot g hreb
        obtain ⟨sp1, sp2, sp3⟩ := searchLoop_props orc bot.uct_c bot.rollout_candidates
          bot.expand_candidates ((bot.prePlayer g).getD EMPTY) g bot.playout_limit 0
          (bot.setupRoot g) 0 (rtF, tF) hsl
        have hOKF : RootChildrenOK g rtF := sp3 (RootChildrenOK_of_no_children hsu1)
        have hplF : rtF.player_to_move = g.current := by rw [sp2, hsu2]
        split_ifs at hch with hemp
        · have hchF : rtF.children = [] := List.isEmpty_iff.1 hemp
          cases hfm : frontier_moves g bot.expand_candidates with
          | cons a l =>
              rw [hfm] at hch
              simp only [Option.some_inj, Prod.mk.injEq] at hch
              refine ⟨rtF, ?_, Or.inr ⟨hchF, hplF⟩⟩
              rw [← hch.2]
          | nil =>
              rw [hfm] at hch
              cases hec : empty_cells g with
              | cons a l =>
                  rw [hec] at hch
                  simp only [Option.some_inj, Prod.mk.injEq] at hch
                  refine ⟨rtF, ?_, Or.inr ⟨hchF, hplF⟩⟩
                  rw [← hch.2]
              | nil => rw [hec] at hch; cases hch
        · cases hbc : bestChild rtF.children with
          | none => rw [hbc] at hch; cases hch
          | some bc =>
              rw [hbc] at hch
              simp only at hch
              cases hbm : bc.move with
              | none => rw [hbm] at hch; simp only at hch; cases hch
              | some m0 =>
                  rw [hbm] at hch
                  simp only [Option.some_inj, Prod.mk.injEq] at hch
                  obtain ⟨hm0, hbot2⟩ := hch
                  obtain ⟨kv, hkv, hkveq⟩ := bestChild_mem hbc
                  obtain ⟨hbmv, hbpl⟩ := hOKF kv hkv
                  rw [hkveq] at hbmv
                  have hm0eq : m0 = ⟨kv.1.1, kv.1.2⟩ := by
                    rw [hbm] at hbmv
                    exact Option.some_inj.1 hbmv
                  have hfind : ∃ kv2, rtF.children.find?
                      (fun kv => kv.1 = (m0.r, m0.c)) = some kv2 := by
                    have hex : kv.1 = (m0.r, m0.c) := by
                      rw [hm0eq]
                    rcases hfq : rtF.children.find? (fun kv => kv.1 = (m0.r, m0.c)) with
                      _ | kv2
                    · rw [List.find?_eq_none] at hfq
                      exact absurd hex (by simpa using hfq kv hkv)
                    · exact ⟨kv2, hfq⟩
                  obtain ⟨kv2, hkv2⟩ := hfind
                  have hkv2mem := List.mem_of_find?_eq_some hkv2
                  have hkv2key : kv2.1 = (m0.r, m0.c) := by
                    have := List.find?_some hkv2
                    simpa using this
                  obtain ⟨hkv2mv, hkv2pl⟩ := hOKF kv2 hkv2mem
                  have hm0eta : (⟨kv2.1.1, kv2.1.2⟩ : Move) = m0 := by
                    rw [hkv2key]
                  refine ⟨kv2.2, ?_, Or.inl ?_⟩
                  · rw [← hbot2]
                    unfold MCTSBot.applyMoveToTree
                    simp only
                    unfold Node.lookupChild
                    rw [hkv2]
                    rfl
                  · rw [hkv2pl, hm0eta, hm0]

/-- C5 counterexample: with a retained root that is reused (no rebuild:
its expected mover RED matches the live mover of the fresh 2x2 board),
`choose` returns (0,0) and re-roots into the stale retained child, whose
expected mover is still RED although after (0,0) the live mover is BLUE
— the retained tree is not guaranteed to expect the post-move mover, as
the unconditional reading of the claim would have it. -/
theorem claim_C5_counterexample :
    staleBot.rebuildNeeded (HexGame.init 2) = false ∧
    MCTSBot.choose orcZero staleBot (HexGame.init 2) =
      some (⟨0, 0⟩, { staleBot with root := some staleChild }) ∧
    staleChild.player_to_move = RED ∧
    (((HexGame.init 2).play ⟨0, 0⟩).2).current = BLUE ∧
    RED ≠ BLUE :=
  ⟨rfl, rfl, rfl, by decide, by decide⟩

/-- C5 witness: the three parts of the claim exercised on concrete
inputs: re-rooting into the (0,0) child of the stale tree, discarding
the tree on the unrecorded move (1,1), and a full rebuilt `choose` run
on the fresh 2x2 board whose returned engine retains the child for the
returned move. -/
theorem claim_C5_witness :
    (staleBot.root = some staleRoot ∧
      staleRoot.lookupChild (((0 : Int), (0 : Int))) = some staleChild ∧
      staleBot.applyMoveToTree ⟨0, 0⟩ = { staleBot with root := some staleChild }) ∧
    (staleRoot.lookupChild (((1 : Int), (1 : Int))) = none ∧
      staleBot.applyMoveToTree ⟨1, 1⟩ =
        { staleBot with root := none, root_player := none }) ∧
    (botSeeded.rebuildNeeded (HexGame.init 2) = true ∧
      MCTSBot.choose orcZero botSeeded (HexGame.init 2) = some (selfPlayMove, selfPlayBot) ∧
      ∃ rt2, selfPlayBot.root = some rt2 ∧
        (rt2.player_to_move = (((HexGame.init 2).play selfPlayMove).2).current ∨
          (rt2.children = [] ∧ rt2.player_to_move = (HexGame.init 2).current))) := by
  refine ⟨⟨rfl, rfl, ?_⟩, ⟨rfl, ?_⟩, rfl, rfl, ?_⟩
  · exact claim_C5_tree_reuse.1 staleBot staleRoot ⟨0, 0⟩ staleChild rfl rfl
  · exact claim_C5_tree_reuse.2.1 staleBot staleRoot ⟨1, 1⟩ rfl rfl
  · exact claim_C5_tree_reuse.2.2 orcZero botSeeded (HexGame.init 2)
      selfPlayMove selfPlayBot rfl rfl

/-- C6: the decision rule of `choose`.  When the searched root has
children, the returned move is the stored move of the first
maximum-visits child in insertion order (Python `max` keeps the first
maximum: every child's count is at most the winner's, every earlier
child's is strictly below); when the search starved and the root has no
children, the returned move is the candidate generator's top suggestion,
or, with an empty candidate list, the first empty cell in row-major
order. -/
theorem claim_C6_decision (orc : Oracle) (bot : MCTSBot) (g : HexGame)
    (m : Move) (bot2 : MCTSBot) (rtF : Node) (tF : Nat)
    (hsl : searchLoop orc bot.uct_c bot.rollout_candidates bot.expand_candidates
        ((bot.prePlayer g).getD EMPTY) g bot.playout_limit 0 (bot.setupRoot g) 0
        = some (rtF, tF))
    (hch : MCTSBot.choose orc bot g = some (m, bot2)) :
    (rtF.children ≠ [] →
      ∃ bc, bestChild rtF.children = some bc ∧ bc.move = some m ∧
        ∃ i, ∃ hi : i < rtF.children.length,
          (rtF.children.get ⟨i, hi⟩).2 = bc ∧
          (∀ kv ∈ rtF.children, kv.2.visits ≤ bc.visits) ∧
          ∀ j, ∀ hj : j < rtF.children.length, j < i →
            (rtF.children.get ⟨j, hj⟩).2.visits < bc.visits)
    ∧ (rtF.children = [] →
        (frontier_moves g bot.expand_candidates).head? = some m ∨
          (frontier_moves g bot.expand_candidates = [] ∧
            (empty_cells g).head? = some m)) := by
  unfold MCTSBot.choose at hch
  rw [hsl] at hch
  simp only at hch
  split_ifs at hch with hemp
  · have hchF : rtF.children = [] := List.isEmpty_iff.1 hemp
    refine ⟨fun hne => absurd hchF hne, fun _ => ?_⟩
    cases hfm : frontier_moves g bot.expand_candidates with
    | cons a l =>
        rw [hfm] at hch
        simp only [Option.some_inj, Prod.mk.injEq] at hch
        exact Or.inl (by rw [hch.1]; rfl)
    | nil =>
        rw [hfm] at hch
        cases hec : empty_cells g with
        | cons a l =>
            rw [hec] at hch
            simp only [Option.some_inj, Prod.mk.injEq] at hch
            exact Or.inr ⟨rfl, by rw [hch.1]; rfl⟩
        | nil => rw [hec] at hch; cases hch
  · have hchF : rtF.children ≠ [] := by
      intro hnil
      rw [hnil] at hemp
      exact hemp rfl
    refine ⟨fun _ => ?_, fun heq => absurd heq hchF⟩
    cases hbc : bestChild rtF.children with
    | none => rw [hbc] at hch; cases hch
    | some bc =>
        rw [hbc] at hch
        simp only at hch
        cases hbm : bc.move with
        | none => rw [hbm] at hch; simp only at hch; cases hch
        | some m0 =>
            rw [hbm] at hch
            simp only [Option.some_inj, Prod.mk.injEq] at hch
            obtain ⟨i, hi, hieq, hall, hprior⟩ := bestChild_spec hbc
            exact ⟨bc, rfl, by rw [hbm, hch.1], i, hi, hieq, hall, hprior⟩

/-- C6 witness: the first self-play `choose` on the empty 2x2 board: the
search loop returns a root with children, and the returned move is the
first maximum-visits child's stored move. -/
theorem claim_C6_witness :
    searchLoop orcZero botSeeded.uct_c botSeeded.rollout_candidates
        botSeeded.expand_candidates ((botSeeded.prePlayer (HexGame.init 2)).getD EMPTY)
        (HexGame.init 2) botSeeded.playout_limit 0
        (botSeeded.setupRoot (HexGame.init 2)) 0 = some c6SearchOut ∧
    MCTSBot.choose orcZero botSeeded (HexGame.init 2) = some (selfPlayMove, selfPlayBot) ∧
    ((c6SearchOut.1.children ≠ [] →
      ∃ bc, bestChild c6SearchOut.1.children = some bc ∧ bc.move = some selfPlayMove ∧
        ∃ i, ∃ hi : i < c6SearchOut.1.children.length,
          (c6SearchOut.1.children.get ⟨i, hi⟩).2 = bc ∧
          (∀ kv ∈ c6SearchOut.1.children, kv.2.visits ≤ bc.visits) ∧
          ∀ j, ∀ hj : j < c6SearchOut.1.children.length, j < i →
            (c6SearchOut.1.children.get ⟨j, hj⟩).2.visits < bc.visits)
    ∧ (c6SearchOut.1.children = [] →
        (frontier_moves (HexGame.init 2) botSeeded.expand_candidates).head?
            = some selfPlayMove ∨
          (frontier_moves (HexGame.init 2) botSeeded.expand_candidates = [] ∧
            (empty_cells (HexGame.init 2)).head? = some selfPlayMove))) :=
  ⟨rfl, rfl, claim_C6_decision orcZero botSeeded (HexGame.init 2) selfPlayMove selfPlayBot
    c6SearchOut.1 c6SearchOut.2 rfl rfl⟩

/-- C7 counterexample (self-play breaks the invariant): after the first
self-play `choose` the engine is reused for the opponent's decision on
the post-move state; the retained root's expected mover matches the live
mover, so no rebuild happens, yet the retained root-perspective player
is still RED while the live mover is BLUE — all backpropagated scores of
the second decision are measured for the wrong side. -/
theorem claim_C7_counterexample :
    selfPlayBot.rebuildNeeded selfPlayGame = false ∧
    (selfPlayBot.chooseSetup selfPlayGame).1.root_player = some RED ∧
    selfPlayGame.current = BLUE ∧
    (selfPlayBot.chooseSetup selfPlayGame).1.root_player ≠ some selfPlayGame.current :=
  ⟨rfl, rfl, rfl, by decide⟩

/-- C7 (amended): the root-perspective player equals the live mover at
the start of the search loop whenever the prologue rebuilt the root (no
retained root, or retained expected mover differing from the live
mover), or when no root-perspective player was retained; reuse with a
matching retained mover keeps the old `root_player` unchanged, and the
counterexample shows it can then disagree with the live mover. -/
theorem claim_C7_root_player (bot : MCTSBot) (g : HexGame)
    (h : bot.rebuildNeeded g = true ∨ bot.root_player = none) :
    (bot.chooseSetup g).1.root_player = some g.current := by
  unfold MCTSBot.chooseSetup
  simp only
  unfold MCTSBot.prePlayer
  rcases h with h | h
  · rw [if_pos h]
  · by_cases h1 : bot.rebuildNeeded g = true
    · rw [if_pos h1]
    · rw [if_neg h1, if_pos h]

/-- C7 witness: a fresh engine (no retained root) on the empty 2x2
board: the rebuild fires and the root-perspective player is set to the
live mover. -/
theorem claim_C7_witness :
    botSeeded.rebuildNeeded (HexGame.init 2) = true ∧
    (botSeeded.chooseSetup (HexGame.init 2)).1.root_player
      = some (HexGame.init 2).current :=
  ⟨rfl, claim_C7_root_player botSeeded (HexGame.init 2) (Or.inl rfl)⟩

/-- C1 (refuting the determinism claim): the constructor stores the seed
(`self.rng = random.Random(seed)`) but `rollout_policy` draws from the
global `random` module, which the seed never touches.  Two runs of
`choose` from the same freshly-seeded engine, the same state and the
same iteration cap, under ambient conditions that agree on every
function the seed is supposed to control (exp/log/sqrt and the
wall-clock tests) but differ in the global random stream, select
different moves: the selected move is not fully determined by the
construction-time seed. -/
theorem claim_C1_seed_not_determining :
    orcAlt.fexp = orcZero.fexp ∧ orcAlt.flog = orcZero.flog ∧
    orcAlt.fsqrt = orcZero.fsqrt ∧ orcAlt.timeOk = orcZero.timeOk ∧
    (MCTSBot.choose orcZero botSeeded (HexGame.init 2)).map Prod.fst ≠
      (MCTSBot.choose orcAlt botSeeded (HexGame.init 2)).map Prod.fst :=
  ⟨rfl, rfl, rfl, rfl, by decide⟩

/-! ### The Y game: adjacency bookkeeping -/

theorem adjacentCells_cases {a b : Nat × Nat} (h : adjacentCells a b) :
    (b.1 + 1 = a.1 ∧ b.2 = a.2) ∨ (b.1 + 1 = a.1 ∧ b.2 = a.2 + 1) ∨
    (b.1 = a.1 ∧ a.2 = b.2 + 1) ∨ (b.1 = a.1 ∧ b.2 = a.2 + 1) ∨
    (b.1 = a.1 + 1 ∧ a.2 = b.2 + 1) ∨ (b.1 = a.1 + 1 ∧ b.2 = a.2) := by
  obtain ⟨d, hd, h1, h2⟩ := h
  simp only [NEI, List.mem_cons, List.not_mem_nil, or_false] at hd
  rcases hd with rfl | rfl | rfl | rfl | rfl | rfl <;> simp only at h1 h2 <;> omega

theorem adjacentCells_symm {a b : Nat × Nat} (h : adjacentCells a b) :
    adjacentCells b a := by
  obtain ⟨d, hd, h1, h2⟩ := h
  simp only [NEI, List.mem_cons, List.not_mem_nil, or_false] at hd
  rcases hd with rfl | rfl | rfl | rfl | rfl | rfl
  · exact ⟨(1, 0), by simp [NEI], by omega, by omega⟩
  · exact ⟨(1, -1), by simp [NEI], by omega, by omega⟩
  · exact ⟨(0, 1), by simp [NEI], by omega, by omega⟩
  · exact ⟨(0, -1), by simp [NEI], by omega, by omega⟩
  · exact ⟨(-1, 1), by simp [NEI], by omega, by omega⟩
  · exact ⟨(-1, 0), by simp [NEI], by omega, by omega⟩

theorem adjacent_bounds {a b : Nat × Nat} (h : adjacentCells a b) :
    b.1 ≤ a.1 + 1 ∧ a.1 ≤ b.1 + 1 ∧ b.2 ≤ a.2 + 1 ∧ a.2 ≤ b.2 + 1 := by
  obtain ⟨d, hd, h1, h2⟩ := h
  simp only [NEI, List.mem_cons, List.not_mem_nil, or_false] at hd
  rcases hd with rfl | rfl | rfl | rfl | rfl | rfl <;> simp only at h1 h2 <;> omega

theorem adj_S (i j : Nat) : adjacentCells (i, j) (i + 1, j) :=
  ⟨(1, 0), by simp [NEI], by omega, by omega⟩

theorem adj_E (i j : Nat) : adjacentCells (i, j) (i, j + 1) :=
  ⟨(0, 1), by simp [NEI], by omega, by omega⟩

theorem adj_SW (i j : Nat) : adjacentCells (i, j + 1) (i + 1, j) :=
  ⟨(1, -1), by simp [NEI], by omega, by omega⟩

theorem adj_NE (i j : Nat) : adjacentCells (i + 1, j) (i, j + 1) :=
  ⟨(-1, 1), by simp [NEI], by omega, by omega⟩

theorem adj_N (i j : Nat) : adjacentCells (i + 1, j) (i, j) :=
  ⟨(-1, 0), by simp [NEI], by omega, by omega⟩

theorem adj_W (i j : Nat) : adjacentCells (i, j + 1) (i, j) :=
  ⟨(0, -1), by simp [NEI], by omega, by omega⟩

theorem majority_eq {a1 a2 a3 b : Bool} (h : majority a1 a2 a3 = b) :
    (a1 = b ∧ a2 = b) ∨ (a1 = b ∧ a3 = b) ∨ (a2 = b ∧ a3 = b) := by
  revert h
  cases a1 <;> cases a2 <;> cases a3 <;> cases b <;> decide

theorem Tcell_mem_cases {p x : Nat × Nat} (h : x ∈ Tcell p) :
    x = p ∨ x = (p.1 + 1, p.2) ∨ x = (p.1, p.2 + 1) := by
  obtain ⟨i, j⟩ := p
  simpa [Tcell] using h

theorem Tcell_self (p : Nat × Nat) : p ∈ Tcell p := by
  obtain ⟨i, j⟩ := p
  simp [Tcell]

theorem Tcell_down (p : Nat × Nat) : (p.1 + 1, p.2) ∈ Tcell p := by
  obtain ⟨i, j⟩ := p
  simp [Tcell]

theorem Tcell_right (p : Nat × Nat) : (p.1, p.2 + 1) ∈ Tcell p := by
  obtain ⟨i, j⟩ := p
  simp [Tcell]

theorem Tcell_adjacent {p x y : Nat × Nat} (hx : x ∈ Tcell p) (hy : y ∈ Tcell p)
    (hxy : x ≠ y) : adjacentCells x y := by
  obtain ⟨i, j⟩ := p
  rcases Tcell_mem_cases hx with rfl | rfl | rfl <;>
    rcases Tcell_mem_cases hy with rfl | rfl | rfl
  · exact absurd rfl hxy
  · exact adj_S i j
  · exact adj_E i j
  · exact adj_N i j
  · exact absurd rfl hxy
  · exact adj_NE i j
  · exact adj_W i j
  · exact adj_SW i j
  · exact absurd rfl hxy

theorem Yreduce_pairs {c : Nat × Nat → Bool} {b : Bool} {p : Nat × Nat}
    (h : Yreduce c p = b) :
    (c p = b ∧ c (p.1 + 1, p.2) = b) ∨ (c p = b ∧ c (p.1, p.2 + 1) = b) ∨
    (c (p.1 + 1, p.2) = b ∧ c (p.1, p.2 + 1) = b) :=
  majority_eq h

theorem Ybridge {c : Nat × Nat → Bool} {b : Bool} {p q : Nat × Nat}
    (hadj : adjacentCells p q) (hp : Yreduce c p = b) (hq : Yreduce c q = b) :
    ∃ x0 y0, x0 ∈ Tcell p ∧ c x0 = b ∧ y0 ∈ Tcell q ∧ c y0 = b ∧
      (x0 = y0 ∨ adjacentCells x0 y0) := by
  obtain ⟨i, j⟩ := p
  obtain ⟨i', j'⟩ := q
  rcases adjacentCells_cases hadj with ⟨h1, h2⟩ | ⟨h1, h2⟩ | ⟨h1, h2⟩ | ⟨h1, h2⟩ |
    ⟨h1, h2⟩ | ⟨h1, h2⟩
  · -- q is the north neighbour of p; shared cell p = q + (1,0)
    obtain rfl : i = i' + 1 := h1.symm
    obtain rfl : j' = j := h2
    by_cases hs : c (i' + 1, j') = b
    · exact ⟨(i' + 1, j'), (i' + 1, j'), Tcell_self _, hs, Tcell_down (i', j'), hs,
        Or.inl rfl⟩
    · rcases Yreduce_pairs hp with ⟨c1, c2⟩ | ⟨c1, c2⟩ | ⟨c1, c2⟩
      · exact absurd c1 hs
      · exact absurd c1 hs
      · rcases Yreduce_pairs hq with ⟨d1, d2⟩ | ⟨d1, d2⟩ | ⟨d1, d2⟩
        · exact absurd d2 hs
        · exact ⟨(i' + 1, j' + 1), (i', j' + 1), Tcell_right (i' + 1, j'), c2,
            Tcell_right (i', j'), d2, Or.inr (adj_N i' (j' + 1))⟩
        · exact absurd d1 hs
  · -- q is the north-east neighbour; shared cell (i'+1, j+1)
    obtain rfl : i = i' + 1 := h1.symm
    obtain rfl : j' = j + 1 := h2
    by_cases hs : c (i' + 1, j + 1) = b
    · exact ⟨(i' + 1, j + 1), (i' + 1, j + 1), Tcell_right (i' + 1, j), hs,
        Tcell_down (i', j + 1), hs, Or.inl rfl⟩
    · rcases Yreduce_pairs hp with ⟨c1, c2⟩ | ⟨c1, c2⟩ | ⟨c1, c2⟩
      · rcases Yreduce_pairs hq with ⟨d1, d2⟩ | ⟨d1, d2⟩ | ⟨d1, d2⟩
        · exact absurd d2 hs
        · exact ⟨(i' + 1, j), (i', j + 1), Tcell_self _, c1, Tcell_self _, d1,
            Or.inr (adj_NE i' j)⟩
        · exact absurd d1 hs
      · exact absurd c2 hs
      · exact absurd c2 hs
  · -- q is the west neighbour; shared cell p = q + (0,1)
    obtain rfl : i' = i := h1
    obtain rfl : j = j' + 1 := h2
    by_cases hs : c (i', j' + 1) = b
    · exact ⟨(i', j' + 1), (i', j' + 1), Tcell_self _, hs, Tcell_right (i', j'), hs,
        Or.inl rfl⟩
    · rcases Yreduce_pairs hp with ⟨c1, c2⟩ | ⟨c1, c2⟩ | ⟨c1, c2⟩
      · exact absurd c1 hs
      · exact absurd c1 hs
      · rcases Yreduce_pairs hq with ⟨d1, d2⟩ | ⟨d1, d2⟩ | ⟨d1, d2⟩
        · exact ⟨(i' + 1, j' + 1), (i' + 1, j'), Tcell_down (i', j' + 1), c1,
            Tcell_down (i', j'), d2, Or.inr (adj_W (i' + 1) j')⟩
        · exact absurd d2 hs
        · exact absurd d2 hs
  · -- q is the east neighbour; shared cell q = p + (0,1)
    obtain rfl : i' = i := h1
    obtain rfl : j' = j + 1 := h2
    by_cases hs : c (i', j + 1) = b
    · exact ⟨(i', j + 1), (i', j + 1), Tcell_right (i', j), hs, Tcell_self _, hs,
        Or.inl rfl⟩
    · rcases Yreduce_pairs hp with ⟨c1, c2⟩ | ⟨c1, c2⟩ | ⟨c1, c2⟩
      · rcases Yreduce_pairs hq with ⟨d1, d2⟩ | ⟨d1, d2⟩ | ⟨d1, d2⟩
        · exact absurd d1 hs
        · exact absurd d1 hs
        · exact ⟨(i' + 1, j), (i' + 1, j + 1), Tcell_down (i', j), c2,
            Tcell_down (i', j + 1), d1, Or.inr (adj_E (i' + 1) j)⟩
      · exact absurd c2 hs
      · exact absurd c2 hs
  · -- q is the south-west neighbour; shared cell (i+1, j'+1)
    obtain rfl : i' = i + 1 := h1
    obtain rfl : j = j' + 1 := h2
    by_cases hs : c (i + 1, j' + 1) = b
    · exact ⟨(i + 1, j' + 1), (i + 1, j' + 1), Tcell_down (i, j' + 1), hs,
        Tcell_right (i + 1, j'), hs, Or.inl rfl⟩
    · rcases Yreduce_pairs hp with ⟨c1, c2⟩ | ⟨c1, c2⟩ | ⟨c1, c2⟩
      · exact absurd c2 hs
      · rcases Yreduce_pairs hq with ⟨d1, d2⟩ | ⟨d1, d2⟩ | ⟨d1, d2⟩
        · exact ⟨(i, j' + 1), (i + 1, j'), Tcell_self _, c1, Tcell_self _, d1,
            Or.inr (adj_SW i j')⟩
        · exact absurd d2 hs
        · exact absurd d2 hs
      · exact absurd c1 hs
  · -- q is the south neighbour; shared cell q = p + (1,0)
    obtain rfl : i' = i + 1 := h1
    obtain rfl : j' = j := h2
    by_cases hs : c (i + 1, j') = b
    · exact ⟨(i + 1, j'), (i + 1, j'), Tcell_down (i, j'), hs, Tcell_self _, hs,
        Or.inl rfl⟩
    · rcases Yreduce_pairs hp with ⟨c1, c2⟩ | ⟨c1, c2⟩ | ⟨c1, c2⟩
      · exact absurd c2 hs
      · rcases Yreduce_pairs hq with ⟨d1, d2⟩ | ⟨d1, d2⟩ | ⟨d1, d2⟩
        · exact absurd d1 hs
        · exact absurd d1 hs
        · exact ⟨(i, j' + 1), (i + 1, j' + 1), Tcell_right (i, j'), c2,
            Tcell_right (i + 1, j'), d2, Or.inr (adj_S i (j' + 1))⟩
      · exact absurd c1 hs

theorem Yconn_props {k : Nat} {c : Nat × Nat → Bool} {b : Bool} {p q : Nat × Nat}
    (h : Yconn k c b p q) : q = p ∨ (Ytri k q ∧ c q = b) := by
  induction h with
  | refl => exact Or.inl rfl
  | tail _ hqr _ => exact Or.inr ⟨hqr.1, hqr.2.1⟩

theorem Tcell_tri {k : Nat} {p : Nat × Nat} (hp : Ytri k p) :
    ∀ x ∈ Tcell p, Ytri (k + 1) x := by
  obtain ⟨i, j⟩ := p
  intro x hx
  rcases Tcell_mem_cases hx with rfl | rfl | rfl <;>
    (simp only [Ytri] at hp ⊢; omega)

theorem Yconn_within {k : Nat} {c : Nat × Nat → Bool} {b : Bool} {p x y : Nat × Nat}
    (hp : Ytri k p) (hx : x ∈ Tcell p) (hy : y ∈ Tcell p) (hcy : c y = b) :
    Yconn (k + 1) c b x y := by
  by_cases hxy : x = y
  · subst hxy
    exact Relation.ReflTransGen.refl
  · exact Relation.ReflTransGen.single ⟨Tcell_tri hp y hy, hcy, Tcell_adjacent hx hy hxy⟩

theorem Yconn_symm {k : Nat} {c : Nat × Nat → Bool} {b : Bool} {p q : Nat × Nat}
    (h : Yconn k c b p q) (hp : Ytri k p) (hcp : c p = b) : Yconn k c b q p := by
  induction h with
  | refl => exact Relation.ReflTransGen.refl
  | @tail m r hpm hmr ih =>
      have hm : Ytri k m ∧ c m = b := by
        rcases Yconn_props hpm with rfl | hh
        · exact ⟨hp, hcp⟩
        · exact hh
      exact Relation.ReflTransGen.head ⟨hm.1, hm.2, adjacentCells_symm hmr.2.2⟩ ih

theorem Yconn_lift {k : Nat} {c : Nat × Nat → Bool} {b : Bool} {p q : Nat × Nat}
    (h : Yconn k (Yreduce c) b p q) :
    Ytri k p → Yreduce c p = b →
    ∀ x y, x ∈ Tcell p → c x = b → y ∈ Tcell q → c y = b → Yconn (k + 1) c b x y := by
  induction h with
  | refl =>
      intro hp _ x y hx _ hy hcy
      exact Yconn_within hp hx hy hcy
  | @tail m r hpm hmr ih =>
      intro hp hcp x y hx hcx hy hcy
      obtain ⟨htriR, hcR, hadj⟩ := hmr
      have hm : Ytri k m ∧ Yreduce c m = b := by
        rcases Yconn_props hpm with rfl | hh
        · exact ⟨hp, hcp⟩
        · exact hh
      obtain ⟨x0, y0, hx0, hcx0, hy0, hcy0, hbr⟩ := Ybridge hadj hm.2 hcR
      have h1 : Yconn (k + 1) c b x x0 := ih hp hcp x x0 hx hcx hx0 hcx0
      have h2 : Yconn (k + 1) c b x0 y0 := by
        rcases hbr with rfl | hbr
        · exact Relation.ReflTransGen.refl
        · exact Relation.ReflTransGen.single ⟨Tcell_tri htriR y0 hy0, hcy0, hbr⟩
      exact (h1.trans h2).trans (Yconn_within htriR hy0 hy hcy)

theorem Yside_top {c : Nat × Nat → Bool} {b : Bool} {p : Nat × Nat}
    (h : Yreduce c p = b) (h0 : p.1 = 0) :
    ∃ x ∈ Tcell p, c x = b ∧ x.1 = 0 := by
  obtain ⟨i, j⟩ := p
  obtain rfl : i = 0 := h0
  rcases Yreduce_pairs h with ⟨c1, c2⟩ | ⟨c1, c2⟩ | ⟨c1, c2⟩
  · exact ⟨(0, j), Tcell_self _, c1, rfl⟩
  · exact ⟨(0, j), Tcell_self _, c1, rfl⟩
  · exact ⟨(0, j + 1), Tcell_right (0, j), c2, rfl⟩

theorem Yside_left {c : Nat × Nat → Bool} {b : Bool} {p : Nat × Nat}
    (h : Yreduce c p = b) (h0 : p.2 = 0) :
    ∃ x ∈ Tcell p, c x = b ∧ x.2 = 0 := by
  obtain ⟨i, j⟩ := p
  obtain rfl : j = 0 := h0
  rcases Yreduce_pairs h with ⟨c1, c2⟩ | ⟨c1, c2⟩ | ⟨c1, c2⟩
  · exact ⟨(i, 0), Tcell_self _, c1, rfl⟩
  · exact ⟨(i, 0), Tcell_self _, c1, rfl⟩
  · exact ⟨(i + 1, 0), Tcell_down (i, 0), c1, rfl⟩

theorem Yside_far {k : Nat} {c : Nat × Nat → Bool} {b : Bool} {p : Nat × Nat}
    (h : Yreduce c p = b) (hend : p.1 + p.2 + 1 = k) :
    ∃ x ∈ Tcell p, c x = b ∧ x.1 + x.2 + 1 = k + 1 := by
  obtain ⟨i, j⟩ := p
  rcases Yreduce_pairs h with ⟨c1, c2⟩ | ⟨c1, c2⟩ | ⟨c1, c2⟩
  · exact ⟨(i + 1, j), Tcell_down (i, j), c2, by simp only at hend ⊢; omega⟩
  · exact ⟨(i, j + 1), Tcell_right (i, j), c2, by simp only at hend ⊢; omega⟩
  · exact ⟨(i + 1, j), Tcell_down (i, j), c1, by simp only at hend ⊢; omega⟩

theorem Ytheorem : ∀ (k : Nat), 1 ≤ k → ∀ (c : Nat × Nat → Bool), ∃ b, YWin k c b := by
  intro k
  induction k with
  | zero => intro h c; omega
  | succ k ih =>
      intro _ c
      cases Nat.eq_zero_or_pos k with
      | inl h0 =>
          subst h0
          exact ⟨c (0, 0), (0, 0), (0, 0), (0, 0), Nat.le_refl 1, rfl, rfl, Nat.le_refl 1,
            rfl, rfl, Nat.le_refl 1, rfl, rfl, Relation.ReflTransGen.refl,
            Relation.ReflTransGen.refl⟩
      | inr hk =>
          obtain ⟨b, pa, pb, pc, ta, ca, ea, tb, cb, eb, tc, cc, ec, hab, hac⟩ :=
            ih hk (Yreduce c)
          obtain ⟨xa, hxa, cxa, exa⟩ := Yside_top ca ea
          obtain ⟨xb, hxb, cxb, exb⟩ := Yside_left cb eb
          obtain ⟨xc, hxc, cxc, exc⟩ := Yside_far cc ec
          exact ⟨b, xa, xb, xc, Tcell_tri ta xa hxa, cxa, exa,
            Tcell_tri tb xb hxb, cxb, exb, Tcell_tri tc xc hxc, cxc, exc,
            Yconn_lift hab ta ca xa xb hxa cxa hxb cxb,
            Yconn_lift hac ta ca xa xc hxa cxa hxc cxc⟩

/-! ### No draws: a filled Hex board has a winner -/

theorem hex_extract_red (g : HexGame) {s q : Nat × Nat}
    (hs : stoneAt g RED s)
    (h : Yconn (2 * g.size - 1) (hexColor g) true s q) :
    (stoneAt g RED q ∧ Relation.ReflTransGen (chainStep g RED) s q) ∨
      (∃ z, stoneAt g RED z ∧ z.1 = g.size - 1 ∧
        Relation.ReflTransGen (chainStep g RED) s z) := by
  induction h with
  | refl => exact Or.inl ⟨hs, Relation.ReflTransGen.refl⟩
  | @tail m r hsm hmr ih =>
      rcases ih with ⟨hmred, hconn⟩ | hdone
      · obtain ⟨htri, hcol, hadj⟩ := hmr
        by_cases hr1 : r.1 < g.size
        · have hr2 : r.2 < g.size := by
            by_contra hge
            unfold hexColor at hcol
            rw [if_neg (by omega), if_pos (by omega)] at hcol
            cases hcol
          have hboard : g.board r.1 r.2 = RED := by
            unfold hexColor at hcol
            rw [if_neg (by omega), if_neg (by omega)] at hcol
            exact of_decide_eq_true hcol
          exact Or.inl ⟨⟨hr1, hr2, hboard⟩, hconn.tail ⟨⟨hr1, hr2, hboard⟩, hadj⟩⟩
        · have hb := adjacent_bounds hadj
          have hm1 := hmred.1
          exact Or.inr ⟨m, hmred, by omega, hconn⟩
      · exact Or.inr hdone

theorem hex_extract_blue (g : HexGame)
    (hfull : ∀ r c : Nat, r < g.size → c < g.size →
      g.board r c = RED ∨ g.board r c = BLUE) {s q : Nat × Nat}
    (hs : stoneAt g BLUE s)
    (h : Yconn (2 * g.size - 1) (hexColor g) false s q) :
    (stoneAt g BLUE q ∧ Relation.ReflTransGen (chainStep g BLUE) s q) ∨
      (∃ z, stoneAt g BLUE z ∧ z.2 = g.size - 1 ∧
        Relation.ReflTransGen (chainStep g BLUE) s z) := by
  induction h with
  | refl => exact Or.inl ⟨hs, Relation.ReflTransGen.refl⟩
  | @tail m r hsm hmr ih =>
      rcases ih with ⟨hmblue, hconn⟩ | hdone
      · obtain ⟨htri, hcol, hadj⟩ := hmr
        have hr1 : r.1 < g.size := by
          by_contra hge
          unfold hexColor at hcol
          rw [if_pos (by omega)] at hcol
          cases hcol
        by_cases hr2 : r.2 < g.size
        · have hboard : g.board r.1 r.2 = BLUE := by
            unfold hexColor at hcol
            rw [if_neg (by omega), if_neg (by omega)] at hcol
            rcases hfull r.1 r.2 hr1 hr2 with hred | hblue
            · rw [hred] at hcol
              simp at hcol
            · exact hblue
          exact Or.inl ⟨⟨hr1, hr2, hboard⟩, hconn.tail ⟨⟨hr1, hr2, hboard⟩, hadj⟩⟩
        · have hb := adjacent_bounds hadj
          have hm2 := hmblue.2.1
          exact Or.inr ⟨m, hmblue, by omega, hconn⟩
      · exact Or.inr hdone

theorem hex_no_draw (g : HexGame) (hn : 1 ≤ g.size)
    (hfull : ∀ r c : Nat, r < g.size → c < g.size →
      g.board r c = RED ∨ g.board r c = BLUE) :
    hasChain g RED ∨ hasChain g BLUE := by
  obtain ⟨b, pa, pb, pc, ta, ca, ea, tb, cb, eb, tc, cc, ec, hab, hac⟩ :=
    Ytheorem (2 * g.size - 1) (by omega) (hexColor g)
  cases b with
  | true =>
      left
      have hpa2 : pa.2 < g.size := by
        by_contra hge
        unfold hexColor at ca
        rw [if_neg (by omega), if_pos (by omega)] at ca
        cases ca
      have hpa1 : pa.1 < g.size := by omega
      have hboard : g.board pa.1 pa.2 = RED := by
        unfold hexColor at ca
        rw [if_neg (by omega), if_neg (by omega)] at ca
        exact of_decide_eq_true ca
      have hsa : stoneAt g RED pa := ⟨hpa1, hpa2, hboard⟩
      have hedge : startEdge RED pa := by
        unfold startEdge
        rw [if_neg (by decide)]
        exact ea
      rcases hex_extract_red g hsa hac with ⟨hqred, hconn⟩ | ⟨z, hz, hz1, hconn⟩
      · refine ⟨pa, pc, hsa, hedge, hconn, ?_⟩
        unfold isEnd
        rw [if_neg (by decide)]
        have h1 := hqred.1
        have h2 := hqred.2.1
        omega
      · refine ⟨pa, z, hsa, hedge, hconn, ?_⟩
        unfold isEnd
        rw [if_neg (by decide)]
        exact hz1
  | false =>
      right
      have hpb1 : pb.1 < g.size := by
        by_contra hge
        unfold hexColor at cb
        rw [if_pos (by omega)] at cb
        cases cb
      have hpb2 : pb.2 < g.size := by omega
      have hboard : g.board pb.1 pb.2 = BLUE := by
        unfold hexColor at cb
        rw [if_neg (by omega), if_neg (by omega)] at cb
        rcases hfull pb.1 pb.2 hpb1 hpb2 with hred | hblue
        · rw [hred] at cb
          simp at cb
        · exact hblue
      have hsb : stoneAt g BLUE pb := ⟨hpb1, hpb2, hboard⟩
      have hedge : startEdge BLUE pb := by
        unfold startEdge
        rw [if_pos rfl]
        exact eb
      have hbc : Yconn (2 * g.size - 1) (hexColor g) false pb pc :=
        (Yconn_symm hab ta ca).trans hac
      rcases hex_extract_blue g hfull hsb hbc with ⟨hqblue, hconn⟩ | ⟨z, hz, hz2, hconn⟩
      · refine ⟨pb, pc, hsb, hedge, hconn, ?_⟩
        unfold isEnd
        rw [if_pos rfl]
        have h1 := hqblue.1
        have h2 := hqblue.2.1
        omega
      · refine ⟨pb, z, hsb, hedge, hconn, ?_⟩
        unfold isEnd
        rw [if_pos rfl]
        exact hz2

/-! ### The play invariant: no chain exists while no winner is recorded -/

theorem hasChain_imp {g g' : HexGame} {player : Nat} (hsize : g'.size = g.size)
    (hcell : ∀ p : Nat × Nat, p.1 < g.size → p.2 < g.size →
      g.board p.1 p.2 = player → g'.board p.1 p.2 = player) :
    hasChain g player → hasChain g' player := by
  rintro ⟨s, t, hst, hedge, hrt, hend⟩
  have hstone : ∀ p, stoneAt g player p → stoneAt g' player p := by
    rintro p ⟨hb1, hb2, hb3⟩
    exact ⟨by omega, by omega, hcell p hb1 hb2 hb3⟩
  refine ⟨s, t, hstone s hst, hedge, ?_, by rw [hsize]; exact hend⟩
  exact Relation.ReflTransGen.mono (fun a b hab => ⟨hstone b hab.1, hab.2⟩) hrt

theorem good_play (g : HexGame) (mv : Move) (hg : GoodState g) :
    GoodState ((g.play mv).2) := by
  obtain ⟨hcur, hvals, hchains⟩ := hg
  unfold HexGame.play
  by_cases h1 : g.winner ≠ EMPTY
  · rw [if_pos h1]
    exact ⟨hcur, hvals, hchains⟩
  · rw [if_neg h1]
    by_cases h2 : ¬ g.in_bounds mv.r mv.c
    · rw [if_pos h2]
      exact ⟨hcur, hvals, hchains⟩
    · rw [if_neg h2]
      by_cases h3 : g.board mv.r.toNat mv.c.toNat ≠ EMPTY
      · rw [if_pos h3]
        exact ⟨hcur, hvals, hchains⟩
      · rw [if_neg h3]
        by_cases h4 : (g.placed mv).has_won g.current = true
        · rw [if_pos h4]
          refine ⟨hcur, ?_, ?_⟩
          · intro r c
            show (if r = mv.r.toNat ∧ c = mv.c.toNat then g.current else g.board r c)
                = EMPTY ∨
              (if r = mv.r.toNat ∧ c = mv.c.toNat then g.current else g.board r c)
                = RED ∨
              (if r = mv.r.toNat ∧ c = mv.c.toNat then g.current else g.board r c)
                = BLUE
            split_ifs with hrc
            · rcases hcur with h | h
              · rw [h]; exact Or.inr (Or.inl rfl)
              · rw [h]; exact Or.inr (Or.inr rfl)
            · exact hvals r c
          · intro hwin
            exfalso
            have hcw : g.current = EMPTY := hwin
            rcases hcur with h | h <;> rw [h] at hcw <;> exact absurd hcw (by decide)
        · rw [if_neg h4]
          have hwE : g.winner = EMPTY := not_not.1 h1
          have htrans : ∀ q, q ≠ g.current →
              hasChain (g.placed mv) q → hasChain g q := by
            intro q hne hch
            refine hasChain_imp (show g.size = (g.placed mv).size from rfl) ?_ hch
            intro p hp1 hp2 hpb
            simp only [HexGame.placed] at hpb
            split_ifs at hpb with hpc
            · exact absurd hpb.symm hne
            · exact hpb
          have hmover : ¬ hasChain (g.placed mv) g.current := by
            intro hch
            exact h4 ((has_won_iff_hasChain (g.placed mv) g.current hcur).2 hch)
          obtain ⟨hncR, hncB⟩ := hchains hwE
          refine ⟨?_, ?_, ?_⟩
          · show (if g.current = RED then BLUE else RED) = RED ∨
              (if g.current = RED then BLUE else RED) = BLUE
            split_ifs with hcR
            · exact Or.inr rfl
            · exact Or.inl rfl
          · intro r c
            show (if r = mv.r.toNat ∧ c = mv.c.toNat then g.current else g.board r c)
                = EMPTY ∨
              (if r = mv.r.toNat ∧ c = mv.c.toNat then g.current else g.board r c)
                = RED ∨
              (if r = mv.r.toNat ∧ c = mv.c.toNat then g.current else g.board r c)
                = BLUE
            split_ifs with hrc
            · rcases hcur with h | h
              · rw [h]; exact Or.inr (Or.inl rfl)
              · rw [h]; exact Or.inr (Or.inr rfl)
            · exact hvals r c
          · intro _
            constructor
            · rcases hcur with h | h
              · intro hch
                rw [← h] at hch
                exact hmover hch
              · intro hch
                exact hncR (htrans RED (by rw [h]; decide) hch)
            · rcases hcur with h | h
              · intro hch
                exact hncB (htrans BLUE (by rw [h]; decide) hch)
              · intro hch
                rw [← h] at hch
                exact hmover hch

theorem good_reachable {g : HexGame} (h : Reachable g) : GoodState g := by
  obtain ⟨n, ms, rfl⟩ := h
  have hinit : GoodState (HexGame.init n) := by
    refine ⟨Or.inl rfl, fun r c => Or.inl rfl, fun _ => ⟨?_, ?_⟩⟩
    · rintro ⟨s, t, ⟨hb1, hb2, hb3⟩, -, -, -⟩
      have hERed : EMPTY = RED := hb3
      exact absurd hERed (by decide)
    · rintro ⟨s, t, ⟨hb1, hb2, hb3⟩, -, -, -⟩
      have hEBlue : EMPTY = BLUE := hb3
      exact absurd hEBlue (by decide)
  have H : ∀ (ms : List Move) (g0 : HexGame), GoodState g0 → GoodState (playAll g0 ms) := by
    intro ms
    induction ms with
    | nil => intro g0 h0; exact h0
    | cons m rest ih => intro g0 h0; exact ih _ (good_play g0 m h0)
  exact H ms _ hinit

/-! ### The empty-cell measure -/

theorem countP_mono' {α : Type} (p p' : α → Bool) :
    ∀ (l : List α), (∀ x ∈ l, p' x = true → p x = true) →
    l.countP p' ≤ l.countP p := by
  intro l
  induction l with
  | nil => intro _; exact Nat.le_refl _
  | cons a l ih =>
      intro him
      rw [List.countP_cons, List.countP_cons]
      have hrec := ih (fun x hx => him x (List.mem_cons_of_mem a hx))
      have hstep : (if p' a then 1 else 0) ≤ (if p a then 1 else 0) := by
        by_cases ha : p' a = true
        · rw [if_pos ha, if_pos (him a (List.mem_cons_self a l) ha)]
        · rw [if_neg ha]
          split_ifs <;> omega
      omega

theorem countP_lt_of_flip {α : Type} (p p' : α → Bool) :
    ∀ (l : List α), (∀ x ∈ l, p' x = true → p x = true) →
    ∀ x0, x0 ∈ l → p x0 = true → p' x0 = false → l.countP p' < l.countP p := by
  intro l
  induction l with
  | nil => intro _ x0 h; cases h
  | cons a l ih =>
      intro him x0 hx0 hp hp'
      rw [List.countP_cons, List.countP_cons]
      rcases List.mem_cons.1 hx0 with rfl | hx0'
      · rw [if_pos hp, if_neg (by rw [hp']; exact Bool.false_ne_true)]
        have := countP_mono' p p' l (fun x hx => him x (List.mem_cons_of_mem x0 hx))
        omega
      · have hrec := ih (fun x hx => him x (List.mem_cons_of_mem a hx)) x0 hx0' hp hp'
        have hstep : (if p' a then 1 else 0) ≤ (if p a then 1 else 0) := by
          by_cases ha : p' a = true
          · rw [if_pos ha, if_pos (him a (List.mem_cons_self a l) ha)]
          · rw [if_neg ha]
            split_ifs <;> omega
        omega

theorem length_flatMap_const {α β : Type} (f : α → List β) (n : Nat) :
    ∀ (l : List α), (∀ a ∈ l, (f a).length = n) → (l.flatMap f).length = l.length * n := by
  intro l
  induction l with
  | nil => intro _; simp
  | cons a l ih =>
      intro h
      rw [List.flatMap_cons, List.length_append, h a (List.mem_cons_self a l),
        ih (fun x hx => h x (List.mem_cons_of_mem a hx)), List.length_cons]
      ring

theorem length_cellsRowMajor (n : Nat) : (cellsRowMajor n).length = n * n := by
  unfold cellsRowMajor
  rw [length_flatMap_const _ n _ (fun a _ => by rw [List.length_map, List.length_range]),
    List.length_range]

theorem emptyCount_le (g : HexGame) : emptyCount g ≤ g.size * g.size := by
  unfold emptyCount
  calc (cellsRowMajor g.size).countP _ ≤ (cellsRowMajor g.size).length :=
        List.countP_le_length _
    _ = g.size * g.size := length_cellsRowMajor g.size

theorem play_size (g : HexGame) (mv : Move) : (g.play mv).2.size = g.size := by
  unfold HexGame.play
  split_ifs <;> rfl

theorem reachable_play {g : HexGame} (h : Reachable g) (mv : Move) :
    Reachable (g.play mv).2 := by
  obtain ⟨n, ms, rfl⟩ := h
  refine ⟨n, ms ++ [mv], ?_⟩
  unfold playAll
  rw [List.foldl_append]
  rfl

theorem emptyCount_play_lt (g : HexGame) (mv : Move) (hcur : g.current = RED ∨ g.current = BLUE)
    (h1 : g.winner = EMPTY) (h2 : g.in_bounds mv.r mv.c)
    (h3 : g.board mv.r.toNat mv.c.toNat = EMPTY) :
    emptyCount (g.play mv).2 < emptyCount g := by
  have hps := play_success g mv h1 h2 h3
  have hboard : ∀ r c : Nat, (g.play mv).2.board r c =
      (if r = mv.r.toNat ∧ c = mv.c.toNat then g.current else g.board r c) := by
    rw [hps]
    split_ifs <;> (intro r c; rfl)
  have hsize : (g.play mv).2.size = g.size := play_size g mv
  unfold emptyCount
  rw [hsize]
  apply countP_lt_of_flip _ _ _ ?_ (mv.r.toNat, mv.c.toNat) ?_ ?_ ?_
  · intro x hx hnew
    have hprop := of_decide_eq_true hnew
    rw [hboard] at hprop
    by_cases hx0 : x.1 = mv.r.toNat ∧ x.2 = mv.c.toNat
    · rw [if_pos hx0] at hprop
      exfalso
      rcases hcur with h | h <;> rw [h] at hprop <;> exact absurd hprop (by decide)
    · rw [if_neg hx0] at hprop
      exact decide_eq_true hprop
  · refine mem_cellsRowMajor.2 ⟨?_, ?_⟩
    · have hb := h2
      unfold HexGame.in_bounds at hb
      omega
    · have hb := h2
      unfold HexGame.in_bounds at hb
      omega
  · exact decide_eq_true h3
  · rw [hboard, if_pos ⟨rfl, rfl⟩]
    rcases hcur with h | h <;> rw [h] <;> decide

/-! ### Rollout totality and termination -/

theorem rollout_total {g : HexGame} (fexp : Frac → Frac) (rnd : Frac) {mc : Nat}
    (hmc : 0 < mc) (hw : g.winner = EMPTY)
    (hcell : ∃ r c : Nat, r < g.size ∧ c < g.size ∧ g.board r c = EMPTY) :
    ∃ m, rollout_policy fexp rnd g mc = some m ∧
      g.in_bounds m.r m.c ∧ g.board m.r.toNat m.c.toNat = EMPTY := by
  have hn : 0 < g.size := by
    obtain ⟨r, c, hr, _, _⟩ := hcell
    omega
  have hne := frontier_moves_ne_nil hmc hcell
  have hmem : ∀ m, m ∈ frontier_moves g mc →
      g.in_bounds m.r m.c ∧ g.board m.r.toNat m.c.toNat = EMPTY := by
    intro m hm
    exact frontier_moves_spec hn hm
  unfold rollout_policy
  split
  · next hmx =>
      exfalso
      cases hfm : frontier_moves g mc with
      | nil => exact hne hfm
      | cons a l => rw [hfm] at hmx; unfold listMax at hmx; simp at hmx
  · next mx hmx =>
      split
      · next m hsg =>
          have hmm := softmaxGo_mem _ _ _ _ hsg
          rw [List.map_fst_zip] at hmm
          · obtain ⟨hb, he⟩ := hmem m hmm
            exact ⟨m, rfl, hb, he⟩
          · rw [List.length_map, List.length_map]
      · next hsg =>
          refine ⟨(frontier_moves g mc).getLast hne, ?_, ?_, ?_⟩
          · exact List.getLast?_eq_getLast _ hne
          · exact (hmem _ (List.getLast_mem hne)).1
          · exact (hmem _ (List.getLast_mem hne)).2

theorem emptyCount_pos_of_no_winner {g : HexGame} (hreach : Reachable g)
    (hn : 1 ≤ g.size) (hw : g.winner = EMPTY) : 0 < emptyCount g := by
  by_contra h0
  have h00 : emptyCount g = 0 := by omega
  have hgood := good_reachable hreach
  have hfull0 := List.countP_eq_zero.1 h00
  have hfull : ∀ r c : Nat, r < g.size → c < g.size →
      g.board r c = RED ∨ g.board r c = BLUE := by
    intro r c hr hc
    have hne := hfull0 (r, c) (mem_cellsRowMajor.2 ⟨hr, hc⟩)
    rcases hgood.2.1 r c with h | h | h
    · exact absurd (decide_eq_true h) hne
    · exact Or.inl h
    · exact Or.inr h
  rcases hex_no_draw g hn hfull with hch | hch
  · exact (hgood.2.2 hw).1 hch
  · exact (hgood.2.2 hw).2 hch

theorem simLoop_terminates (orc : Oracle) (rc : Nat) (hrc : 0 < rc) :
    ∀ (fuel : Nat) (g : HexGame) (t : Nat), Reachable g → 1 ≤ g.size →
      emptyCount g ≤ fuel →
      ∃ g' t', simLoop orc rc fuel g t = some (g', t') ∧ g'.winner ≠ EMPTY ∧
        Reachable g' := by
  intro fuel
  induction fuel with
  | zero =>
      intro g t hreach hn hcnt
      rw [simLoop]
      by_cases hw : g.winner ≠ EMPTY
      · rw [if_pos hw]
        exact ⟨g, t, rfl, hw, hreach⟩
      · exfalso
        have hw' : g.winner = EMPTY := not_not.1 hw
        have := emptyCount_pos_of_no_winner hreach hn hw'
        omega
  | succ fuel ih =>
      intro g t hreach hn hcnt
      rw [simLoop]
      by_cases hw : g.winner ≠ EMPTY
      · rw [if_pos hw]
        exact ⟨g, t, rfl, hw, hreach⟩
      · rw [if_neg hw]
        have hw' : g.winner = EMPTY := not_not.1 hw
        have hpos := emptyCount_pos_of_no_winner hreach hn hw'
        obtain ⟨a, ha, hpa⟩ := List.countP_pos_iff.1 hpos
        have hcellmem := mem_cellsRowMajor.1 ha
        have hcellE := of_decide_eq_true hpa
        obtain ⟨m, hm, hb, he⟩ := rollout_total (orc.fexp) (orc.rand t) hrc hw'
          ⟨a.1, a.2, hcellmem.1, hcellmem.2, hcellE⟩
        rw [hm]
        apply ih (g.play m).2 (t + 1)
        · exact reachable_play hreach m
        · rw [play_size]
          exact hn
        · have hlt := emptyCount_play_lt g m (good_reachable hreach).1 hw' hb he
          omega

/-- C8: from every reachable non-terminal state (no winner, at least
one empty cell) the simulation loop that repeatedly applies the rollout
policy reaches a state with a winner within N*N steps (N the board
size), for every ambient random stream and every positive rollout
candidate cap (the engine always passes its positive
`rollout_candidates`; the loop consumes one empty cell per step and a
filled board always has a winner). -/
theorem claim_C8_rollout_termination (orc : Oracle) (rc : Nat) (g : HexGame) (t : Nat)
    (hrc : 0 < rc) (hreach : Reachable g) (hw : g.winner = EMPTY)
    (hcell : ∃ r c : Nat, r < g.size ∧ c < g.size ∧ g.board r c = EMPTY) :
    ∃ g' t', simLoop orc rc (g.size * g.size) g t = some (g', t') ∧
      g'.winner ≠ EMPTY := by
  obtain ⟨r, c, hr, hc, hb⟩ := hcell
  obtain ⟨g', t', h1, h2, -⟩ := simLoop_terminates orc rc hrc (g.size * g.size) g t
    hreach (by omega) (emptyCount_le g)
  exact ⟨g', t', h1, h2⟩

/-- C8 witness: the fresh 2x2 board under the all-zero random stream
and the default candidate cap: the rollout loop reaches a decided state
within 4 steps. -/
theorem claim_C8_witness :
    ((0 : Nat) < 12 ∧ Reachable (HexGame.init 2) ∧ (HexGame.init 2).winner = EMPTY ∧
      (∃ r c : Nat, r < (HexGame.init 2).size ∧ c < (HexGame.init 2).size ∧
        (HexGame.init 2).board r c = EMPTY)) ∧
    ∃ g' t', simLoop orcZero 12 ((HexGame.init 2).size * (HexGame.init 2).size)
        (HexGame.init 2) 0 = some (g', t') ∧ g'.winner ≠ EMPTY :=
  ⟨⟨by decide, ⟨2, [], rfl⟩, rfl, ⟨0, 0, by decide, by decide, rfl⟩⟩,
   claim_C8_rollout_termination orcZero 12 (HexGame.init 2) 0 (by decide)
     ⟨2, [], rfl⟩ rfl ⟨0, 0, by decide, by decide, rfl⟩⟩

end HexPy
